import Mathlib

/-!
Verification of the arxiv_fetcher pipeline.

This file shallowly embeds the parts of the repository that the checked
properties are about, and proves or refutes each property.

Conventions of the embedding:
* Python strings are Lean `String`s; the embedding works on the ASCII subset
  (Python's unicode-aware `lower`/`\w` semantics agree with the embedding on
  ASCII input, plus the lone non-ASCII keyword letter is matched literally).
* Python dicts keyed by strings are association lists; dict assignment is
  replace-or-append, dict lookup takes the binding for the key.
* SQL `DATE` values are ISO `YYYY-MM-DD` strings; the SQL comparisons
  `LEAST`/`GREATEST` are `min`/`max` in the lexicographic string order,
  which coincides with chronological order on ISO dates.
* Python floats produced by `difflib` ratios are exact rationals `ℚ`
  (`2 * matches / total length`), so threshold comparisons are exact.
* Database tables are lists of typed rows; `SERIAL` ids come from a
  `next_id` counter; inserts append, `UPDATE`s map over rows in place.
-/

namespace ArxivFetcher

/-! ## Python string primitives (src/src/agent/utils.py helpers) -/

/-- Python whitespace, as used by `str.split()` and `str.strip()`. -/
def isPySpace (c : Char) : Bool :=
  c = ' ' || c = '\t' || c = '\n' || c = '\r' || c = '\x0b' || c = '\x0c'

/-- ASCII lower-casing of one character (Python `str.lower` on ASCII). -/
def asciiLower (c : Char) : Char :=
  if 'A' ≤ c ∧ c ≤ 'Z' then Char.ofNat (c.toNat + 32) else c

/-- Lower-case a string character-wise. -/
def pyLower (s : String) : String := ⟨s.data.map asciiLower⟩

/-- Python `str.strip()` with no arguments: drop leading and trailing whitespace. -/
def pyStripL (l : List Char) : List Char :=
  ((l.dropWhile isPySpace).reverse.dropWhile isPySpace).reverse

/-- Python `str.strip()` on strings. -/
def pyStrip (s : String) : String := ⟨pyStripL s.data⟩

/-- Lower-case ASCII letter or digit (the survivors of `re.sub(r"[^a-z0-9]", "", _)`). -/
def isLowerAlnum (c : Char) : Bool :=
  ('a' ≤ c && c ≤ 'z') || ('0' ≤ c && c ≤ '9')

/-- The source's `norm_string` (utils.py:742): lower-case, keep only `[a-z0-9]`. -/
def norm_string (s : String) : String :=
  ⟨(pyLower s).data.filter isLowerAlnum⟩

/-- Split a character list at every occurrence of `sep`, keeping empty segments,
as Python `str.split(sep)` does. -/
def splitChar (sep : Char) : List Char → List (List Char)
  | [] => [[]]
  | c :: rest =>
    let r := splitChar sep rest
    if c = sep then [] :: r
    else
      match r with
      | h :: t => (c :: h) :: t
      | [] => [[c]]

/-- Python `s.split(",")`. -/
def splitComma (s : String) : List String :=
  (splitChar ',' s.data).map (fun l => ⟨l⟩)

/-- Whitespace tokenisation, as Python's no-argument `str.split()`:
maximal runs of non-whitespace characters. -/
def wsTokens : List Char → List (List Char)
  | [] => []
  | c :: rest =>
    let r := wsTokens rest
    if isPySpace c then r
    else
      match rest.head? with
      | some c2 => if isPySpace c2 then [c] :: r else (c :: r.headD []) :: r.tail
      | none => [[c]]

/-- Python `" ".join(s.split())`: collapse whitespace runs to single spaces. -/
def collapseSpaces (s : String) : String :=
  String.intercalate " " ((wsTokens s.data).map (fun l => ⟨l⟩))

/-- Python `s.replace(" ", "")`: remove space characters (only `' '`). -/
def removeSpaces (s : String) : String := ⟨s.data.filter (fun c => c ≠ ' ')⟩

/-! ## NameNormalizer (src/src/agent/utils.py:742-823)

The regular expressions of the source are embedded as explicit scanners
with the same matching semantics (leftmost match, alternation order,
greedy repetition). `src/src/agent/data_graph.py:1371-1465` contains a
textually identical copy of these helpers (modulo one accent in the
keyword vocabulary); the embedding follows the `utils.py` master copy. -/

/-- One rewrite step of `re.sub(r"\([^\)]*\)", "", s)`: on `(`, drop through
the next `)` if one exists, otherwise leave the remainder untouched (the
pattern requires a closing parenthesis). `fuel` bounds recursion depth and is
always called with the string length, which suffices. -/
def stripParensGo : Nat → List Char → List Char
  | 0, l => l
  | _ + 1, [] => []
  | fuel + 1, c :: rest =>
    if c = '(' then
      match rest.dropWhile (fun d => d ≠ ')') with
      | [] => c :: rest
      | _ :: after => stripParensGo fuel after
    else c :: stripParensGo fuel rest

/-- The source's `strip_parentheses` (utils.py:746). -/
def strip_parentheses (s : String) : String :=
  pyStrip ⟨stripParensGo s.data.length s.data⟩

/-- The source's `first_segment_before_comma` (utils.py:750):
`s.split(",", 1)[0].strip()`. -/
def first_segment_before_comma (s : String) : String :=
  pyStrip ⟨s.data.takeWhile (fun c => c ≠ ',')⟩

/-- The source's `last_segment_after_comma` (utils.py:754): last of the
stripped non-empty comma segments, else the whole string stripped. -/
def last_segment_after_comma (s : String) : String :=
  let parts := (splitComma s).filterMap
    (fun p => if p ≠ "" ∧ pyStrip p ≠ "" then some (pyStrip p) else none)
  match parts.getLast? with
  | none => pyStrip s
  | some t => t

/-- Case-insensitive (ASCII) prefix match: consume `kw` (given lower-case)
from the front of `l`, or fail. -/
def dropCI (kw : String) (l : List Char) : Option (List Char) :=
  if (l.take kw.length).map asciiLower = kw.data then some (l.drop kw.length) else none

/-- Scanner for the regex tail `\s+of\s+` (case-insensitive, greedy). -/
def dropWsOfWs (l : List Char) : Option (List Char) :=
  match l with
  | [] => none
  | c :: rest =>
    if isPySpace c then
      match dropCI "of" (rest.dropWhile isPySpace) with
      | none => none
      | some l2 =>
        match l2 with
        | [] => none
        | c2 :: rest2 => if isPySpace c2 then some (rest2.dropWhile isPySpace) else none
    else none

/-- The alternatives of `_DEPT_PREFIX` (utils.py:52) in alternation order;
the optional dot of `dept\.?` is expanded greedily, dot form first. -/
def deptKeywords : List String :=
  ["department", "dept.", "dept", "school", "faculty", "college", "laboratory",
   "laboratories", "lab", "centre", "center", "institute", "institutes",
   "academy", "division", "unit"]

/-- The source's `strip_dept_prefix` (utils.py:761): remove one leading
department-like qualifier followed by `of`, then strip. -/
def stripDeptOf (s : String) : String :=
  match deptKeywords.findSome? (fun kw => (dropCI kw s.data).bind dropWsOfWs) with
  | some rest => pyStrip ⟨rest⟩
  | none => pyStrip s

/-- The source's `strip_articles` (utils.py:765):
`re.sub(r"^(\s*(the|a|an)\s+)", "", s, IGNORECASE).strip()`. -/
def stripArticles (s : String) : String :=
  let l := s.data.dropWhile isPySpace
  match ["the", "a", "an"].findSome? (fun art => (dropCI art l).bind (fun r =>
    match r with
    | [] => none
    | c :: rest => if isPySpace c then some (rest.dropWhile isPySpace) else none)) with
  | some rest => pyStrip ⟨rest⟩
  | none => pyStrip s

/-- ASCII letter test (the `[A-Za-z]` class). -/
def isAsciiAlpha (c : Char) : Bool :=
  ('a' ≤ c && c ≤ 'z') || ('A' ≤ c && c ≤ 'Z')

/-- Maximal runs of ASCII letters: the non-empty tokens of
`re.split(r"[^A-Za-z]+", s)`. -/
def alphaRuns : List Char → List (List Char)
  | [] => []
  | c :: rest =>
    let r := alphaRuns rest
    if isAsciiAlpha c then
      match rest.head? with
      | some c2 => if isAsciiAlpha c2 then (c :: r.headD []) :: r.tail else [c] :: r
      | none => [[c]]
    else r

/-- The stop-word list of `build_acronym` (utils.py:772). -/
def acronymSkip : List String := ["of", "and", "for", "at", "in", "on"]

/-- The source's `build_acronym` (utils.py:769): first letter of every
letter-run token whose lower-casing is not a stop word, joined and
lower-cased. -/
def build_acronym (s : String) : String :=
  let tokens := alphaRuns s.data
  let letters := tokens.filterMap
    (fun t => if acronymSkip.contains (pyLower ⟨t⟩) then none else t.head?)
  ⟨letters.map asciiLower⟩

/-- Python `\w` (word character) on the embedding's ASCII-plus scope:
ASCII alphanumerics, underscore, and any non-ASCII character (adequate for
the accented letters appearing in the keyword vocabulary). -/
def isWordChar (c : Char) : Bool :=
  isLowerAlnum (asciiLower c) || c = '_' || decide (128 ≤ c.toNat)

/-- The `org_keywords` alternatives (utils.py:801-806) with a flag telling
whether the alternative ends in a word character (every one except `co.`),
which decides how the trailing `\b` reads. -/
def orgKeywordList : List (String × Bool) :=
  [("university", true), ("institute", true), ("college", true), ("academy", true),
   ("polytechnic", true), ("universite", true), ("université", true),
   ("universidad", true), ("universita", true), ("group", true), ("corp", true),
   ("corporation", true), ("company", true), ("ltd", true), ("limited", true),
   ("inc", true), ("incorporated", true), ("llc", true), ("co.", false),
   ("gmbh", true), ("sa", true), ("ag", true), ("bv", true), ("pty", true),
   ("pte", true), ("technologies", true), ("tech", true), ("lab", true),
   ("labs", true), ("laboratory", true), ("laboratories", true),
   ("research", true), ("systems", true), ("solutions", true),
   ("international", true), ("global", true)]

/-- Does some `org_keywords` alternative match at the head of `l`, with a
valid trailing word boundary? -/
def kwMatchAt (l : List Char) : Bool :=
  orgKeywordList.any (fun kw =>
    match dropCI kw.1 l with
    | none => false
    | some rest =>
      if kw.2 then
        match rest.head? with
        | none => true
        | some c => !(isWordChar c)
      else
        match rest.head? with
        | none => false
        | some c => isWordChar c)

/-- Scan every position of the string for a keyword match whose leading word
boundary holds (`prev` is the character before the current position; every
alternative starts with a word character, so the leading `\b` reduces to the
previous character not being a word character). -/
def orgSearchGo : Option Char → List Char → Bool
  | _, [] => false
  | prev, c :: rest =>
    ((match prev with
      | none => true
      | some p => !(isWordChar p)) && kwMatchAt (c :: rest))
      || orgSearchGo (some c) rest

/-- The `org_keywords.search` test applied to candidate tail segments
(utils.py:815-816). -/
def orgKeywordSearch (s : String) : Bool := orgSearchGo none s.data

/-- The `tail2` candidate of `normalize_aff_variants` (utils.py:783):
last two comma segments stripped and re-joined, or the name itself when it
has no comma. -/
def tailTwo (name : String) : String :=
  if name.data.contains ',' then
    let parts := (splitComma name).map pyStrip
    String.intercalate ", " (parts.drop (parts.length - 2))
  else name

/-- The source's `normalize_aff_variants` (utils.py:776-823): the fixed
candidate transforms plus their article-stripped forms, tail candidates
gated on the organisational-keyword vocabulary, each normalised by
`norm_string`, deduplicated in first-occurrence order. The acronym is NOT
part of this list. -/
def normalize_aff_variants (name : String) : List String :=
  if pyStrip name = "" then []
  else
    let tail1 := last_segment_after_comma name
    let t2 := tailTwo name
    let base := [name, strip_parentheses name, first_segment_before_comma name,
                 stripDeptOf name, stripDeptOf (first_segment_before_comma name),
                 stripDeptOf (strip_parentheses name), tail1, stripDeptOf tail1, t2]
    let candidates := base ++ base.map stripArticles
    candidates.foldl (fun norms c =>
      if pyStrip c == "" then norms
      else if (c == tail1 || c == stripDeptOf tail1 || c == t2) && !(orgKeywordSearch c)
        then norms
      else
        let normalized := norm_string c
        if normalized != "" && !(norms.contains normalized) then norms ++ [normalized]
        else norms) []

/-! ## difflib.SequenceMatcher.ratio

`SequenceMatcher(None, t, k).ratio()` for short strings (autojunk applies
only to sequences of 200+ elements, far above the normalised institution
keys): total size of the recursively chosen longest matching blocks,
scaled as `2*M/T` with exact rational arithmetic. -/

/-- Length of the common prefix of two character lists. -/
def commonPrefLen : List Char → List Char → Nat
  | a :: as, b :: bs => if a = b then commonPrefLen as bs + 1 else 0
  | _, _ => 0

/-- Length of the matching block starting at positions `i`, `j`. -/
def extLen (a b : List Char) (i j : Nat) : Nat :=
  commonPrefLen (a.drop i) (b.drop j)

/-- difflib's `find_longest_match` on junk-free input: the longest matching
block, ties resolved to the smallest start in `a` then the smallest start in
`b` (the first strict improvement found scanning in lexicographic position
order, exactly difflib's update discipline). -/
def bestBlock (a b : List Char) : Nat × Nat × Nat :=
  ((List.range a.length).flatMap (fun i => (List.range b.length).map (fun j => (i, j)))).foldl
    (fun best ij =>
      let k := extLen a b ij.1 ij.2
      if best.2.2 < k then (ij.1, ij.2, k) else best) (0, 0, 0)

/-- Total matched size over difflib's recursive block decomposition
(`get_matching_blocks`). The fuel is always instantiated with the combined
length, which bounds the recursion depth. -/
def matchTotal : Nat → List Char → List Char → Nat
  | 0, _, _ => 0
  | fuel + 1, a, b =>
    let bb := bestBlock a b
    if bb.2.2 = 0 then 0
    else
      matchTotal fuel (a.take bb.1) (b.take bb.2.1) + bb.2.2 +
        matchTotal fuel (a.drop (bb.1 + bb.2.2)) (b.drop (bb.2.1 + bb.2.2))

/-- difflib's `ratio()` as an exact rational: `2*M/T`, and 1.0 when both
sequences are empty (`mkRat` performs the exact division). -/
def ratioL (a b : List Char) : ℚ :=
  if a.length + b.length = 0 then 1
  else mkRat (2 * (matchTotal (a.length + b.length) a b : Int)) (a.length + b.length)

/-- `SequenceMatcher(None, t, k).ratio()` on strings, argument order as in
the source (`t` is the target variant, `k` the candidate variant). -/
def ratioStr (t k : String) : ℚ := ratioL t.data k.data

/-! ## IdentityResolver (src/src/agent/utils.py:359-391 and 930-972) -/

/-- One parsed ORCID employment or education entry, as produced by the
profile parsing (`parse_affs`): organisation, department, role title and
ISO date strings. -/
structure AffEntry where
  organization : String := ""
  department : String := ""
  role : String := ""
  start_date : Option String := none
  end_date : Option String := none
deriving DecidableEq

/-- A parsed ORCID scholar profile as consumed by the matcher. -/
structure Scholar where
  orcid_id : Option String := none
  employments : List AffEntry := []
  educations : List AffEntry := []
deriving DecidableEq

/-- Which list the winning entry came from (`{"kind": ...}` tag). -/
inductive MatchKind where
  | employment
  | education
deriving DecidableEq

/-- The `score_one` closure of `best_aff_match_for_institution`
(utils.py:365-375): best ratio between any target variant and any variant
of the entry's organisation, improved by the department when present. -/
def scoreOne (targetNorms : List String) (org dept : String) : ℚ :=
  let b1 := (normalize_aff_variants org).foldl (fun best k =>
    targetNorms.foldl (fun best t => max best (ratioStr t k)) best) 0
  if dept ≠ "" then
    (normalize_aff_variants dept).foldl (fun best k =>
      targetNorms.foldl (fun best t => max best (ratioStr t k)) best) b1
  else b1

/-- One step of the best-entry scan: keep the entry with the strictly higher
score (`if s > best_emp_s`, utils.py:379). -/
def bestStep (score : AffEntry → ℚ) (acc : Option AffEntry × ℚ) (e : AffEntry) :
    Option AffEntry × ℚ :=
  let s := score e
  if acc.2 < s then (some e, s) else acc

/-- The best-entry scan of `best_aff_match_for_institution`
(utils.py:376-385): keep the entry with the strictly highest score, starting
from score `0.0` (an all-zero list yields no entry). -/
def bestEntry (score : AffEntry → ℚ) (l : List AffEntry) : Option AffEntry × ℚ :=
  l.foldl (bestStep score) (none, 0)

/-- Score of one entry against the affiliation's variants
(`score_one(e.organization, e.department)` with the target norms of the
affiliation; the source computes the variant list once, the embedding
recomputes the same pure value per entry). -/
def matchScore (aff_name : String) (e : AffEntry) : ℚ :=
  scoreOne (normalize_aff_variants aff_name) e.organization e.department

/-- The return discipline of `best_aff_match_for_institution`
(utils.py:386-391): employment first when it clears 0.86, then education
when it clears 0.86, else nothing. -/
def pickMatch (emp edu : Option AffEntry × ℚ) : Option (MatchKind × AffEntry) :=
  let r1 : Option (MatchKind × AffEntry) :=
    match emp.1 with
    | some e => if mkRat 86 100 ≤ emp.2 then some (MatchKind.employment, e) else none
    | none => none
  match r1 with
  | some r => some r
  | none =>
    match edu.1 with
    | some e => if mkRat 86 100 ≤ edu.2 then some (MatchKind.education, e) else none
    | none => none

/-- The source's `best_aff_match_for_institution` (utils.py:359-391):
score both lists, return the best employment entry when it clears 0.86,
else the best education entry when it clears 0.86, else nothing. The same
function appears verbatim as `_best_aff_match_for_institution` in
data_graph.py:428-460. -/
def best_aff_match_for_institution (aff_name : String) (scholar : Scholar) :
    Option (MatchKind × AffEntry) :=
  if normalize_aff_variants aff_name = [] then none
  else
    pickMatch (bestEntry (matchScore aff_name) scholar.employments)
      (bestEntry (matchScore aff_name) scholar.educations)

/-- One row of the QS reference directory (`rec` dict of
`load_qs_rankings`, utils.py:871). -/
structure QsRec where
  name : String
  country : String := ""
  r2025 : String := ""
  r2024 : String := ""
deriving DecidableEq

/-- One fuzzy-fallback entry of the directory (`names` list entry of
`load_qs_rankings`, utils.py:890): display name, its record, and its stored
normalised variants. -/
structure QsItem where
  name : String
  record : QsRec
  norms : List String := []
deriving DecidableEq

/-- Phase 1 of `find_qs_record_for_aff` (utils.py:933-936): first exact hit
of a normalised variant in the directory key map. -/
def firstVariantHit (ks : List String) (qsMap : List (String × QsRec)) : Option QsRec :=
  match ks with
  | [] => none
  | k :: rest =>
    match qsMap.lookup k with
    | some r => some r
    | none => firstVariantHit rest qsMap

/-- Phase 1b of `find_qs_record_for_aff` (utils.py:938-942): exact hit of
the acronym key, only attempted when the acronym is non-empty. -/
def acronymHit (name : String) (qsMap : List (String × QsRec)) : Option QsRec :=
  let ak := build_acronym name
  if ak ≠ "" then qsMap.lookup ak else none

/-- Set insertion, modelled as append-if-absent (Python's `set` iteration
order is unspecified; the fold below is order-insensitive in everything the
theorems state). -/
def addUnique (l : List String) (x : String) : List String :=
  if l.contains x then l else l ++ [x]

/-- The fuzzy-phase target set of `find_qs_record_for_aff`
(utils.py:947-954): the normalised variants, plus the normalised
after-first-comma suffix when non-empty, plus the acronym when non-empty. -/
def fuzzyTargets (name : String) : List String :=
  let base := normalize_aff_variants name
  let after := String.intercalate "," (((splitComma name).drop 1).map pyStrip)
  let withAfter :=
    if after ≠ "" ∧ norm_string after ≠ "" then addUnique base (norm_string after) else base
  let ak := build_acronym name
  if ak ≠ "" then addUnique withAfter ak else withAfter

/-- One step of the fuzzy scan of `find_qs_record_for_aff`
(utils.py:959-966): strictly improve the best candidate with score
`ratio(t, k)`. -/
def fuzzyStep (acc : Option QsRec × ℚ) (x : QsItem × String × String) :
    Option QsRec × ℚ :=
  let s := ratioStr x.2.1 x.2.2
  if acc.2 < s then (some x.1.record, s) else acc

/-- The iteration space of the fuzzy scan: every directory entry against
every target and every stored variant, in the source's loop nesting order. -/
def fuzzyTriples (qsNames : List QsItem) (targets : List String) :
    List (QsItem × String × String) :=
  qsNames.flatMap (fun it => targets.flatMap (fun t => it.norms.map (fun k => (it, t, k))))

/-- The source's `find_qs_record_for_aff` (utils.py:930-972): exact variant
hit, else exact acronym hit, else the best-scoring fuzzy candidate provided
it reaches 0.84. -/
def find_qs_record_for_aff (name : String) (qsMap : List (String × QsRec))
    (qsNames : List QsItem) : Option QsRec :=
  match firstVariantHit (normalize_aff_variants name) qsMap with
  | some r => some r
  | none =>
    match acronymHit name qsMap with
    | some r2 => some r2
    | none =>
      if fuzzyTargets name = [] then none
      else
        match (fuzzyTriples qsNames (fuzzyTargets name)).foldl fuzzyStep
          ((none : Option QsRec), (0 : ℚ)) with
        | (some r, score) => if mkRat 84 100 ≤ score then some r else none
        | (none, _) => none

/-- Largest pairwise ratio between a list of targets and a list of stored
candidate variants. -/
def maxPairRatio (ts ks : List String) : ℚ :=
  (ts.flatMap (fun t => ks.map (fun k => ratioStr t k))).foldl max 0

/-! ## EnrichmentWorker and FanoutCoordinator (src/src/agent/data_graph.py)

The LangGraph node functions are embedded as pure functions; the external
effects (PDF first-page download, LLM structured response, ORCID candidate
fetch) become explicit parameters holding their results, and the DB
pre-check of `process_orcid_for_paper` follows the no-database execution
path (the exception handler leaves the pre-check maps empty and the lookup
proceeds). -/

/-- One author's extracted affiliations (`author_affiliations` items). -/
structure AuthorAff where
  name : String
  affiliations : List String
deriving DecidableEq

/-- Per-(author, affiliation) metadata captured from ORCID
(`orcid_aff_meta` leaf: role, start/end ISO date strings). -/
structure OrcidMeta where
  role : Option String := none
  start_date : Option String := none
  end_date : Option String := none
deriving DecidableEq

/-- A paper dict as it flows through the data-processing graph: the raw
fetched fields plus the enrichment fields that workers may attach. -/
structure Paper where
  id : String
  title : String := ""
  summary : String := ""
  published_at : Option String := none
  updated_at : Option String := none
  pdf_url : Option String := none
  authors : List String := []
  categories : List String := []
  author_affiliations : List AuthorAff := []
  orcid_by_author : List (String × String) := []
  orcid_aff_meta : List (String × List (String × OrcidMeta)) := []
deriving DecidableEq

/-- One entry of the parsed LLM response (`data["authors"]`). -/
structure LlmAuthorEntry where
  name : String
  affiliations : List String
deriving DecidableEq

/-- A `Send` task produced by the dispatcher, tagged with its target node. -/
inductive Job where
  | processSinglePaper (paper : Paper)
  | processOrcidForPaper (paper : Paper)
deriving DecidableEq

/-- The source's `dispatch_affiliations` (data_graph.py:960-969): for every
raw paper, one affiliation-extraction `Send` AND one identity-registry
`Send`, all emitted in a single flat batch carrying the raw paper. -/
def dispatch_affiliations (raw : List Paper) : List Job :=
  if raw = [] then []
  else (raw.map (fun p => [Job.processSinglePaper p, Job.processOrcidForPaper p])).flatten

/-- Python falsiness of an optional string field (`if not pdf_url`). -/
def optStrFalsy : Option String → Bool
  | none => true
  | some s => s == ""

/-- The `aff_by_name` dict comprehension (data_graph.py:347): keys are the
stripped entry names; for duplicate keys the last entry wins, so lookup
reads the reversed association list. -/
def affByName (entries : List LlmAuthorEntry) : List (String × List String) :=
  entries.map (fun a => (pyStrip a.name, a.affiliations))

/-- The source's `process_single_paper` (data_graph.py:315-354) with the
downloaded first-page text and the parsed LLM response as parameters
(`none` = parse/LLM failure): missing authors or pdf url, empty text, or a
failed parse yield an empty `author_affiliations` list; a parsed response
is mapped back onto the authoritative author list in order. -/
def processSinglePaper (paper : Paper) (firstPageText : String)
    (llmParsed : Option (List LlmAuthorEntry)) : Paper :=
  if paper.authors.isEmpty || optStrFalsy paper.pdf_url then
    { paper with author_affiliations := [] }
  else if firstPageText = "" then
    { paper with author_affiliations := [] }
  else
    match llmParsed with
    | none => { paper with author_affiliations := [] }
    | some entries =>
      let dict := affByName entries
      let mapped := paper.authors.map (fun nm =>
        { name := nm
          affiliations := ((dict.reverse.lookup nm).getD []).filterMap
            (fun s => if s ≠ "" ∧ pyStrip s ≠ "" then some (pyStrip s) else none) })
      { paper with author_affiliations := mapped }

/-- String shape of `_parse_orcid_date` (data_graph.py:398-425; the dict
shape arrives only from the raw ORCID API and is already resolved in the
parsed entries): pad `YYYY` and `YYYY-MM`, truncate to 10 characters. -/
def parseOrcidDateStr (s : String) : Option String :=
  if s = "" then none
  else
    let txt := pyStrip s
    if txt.length = 4 && txt.data.all (fun c => c.isDigit) then some (txt ++ "-01-01")
    else if txt.length = 7 && txt.data.get? 4 == some '-' then some (txt ++ "-01")
    else if 10 ≤ txt.length then some ⟨txt.data.take 10⟩
    else none

/-- The affiliation normalisation key used by the ORCID worker and the
upsert (`" ".join(aff.split()).replace(" ", "").lower()`). -/
def orcidNormKey (aff : String) : String :=
  pyLower (removeSpaces (collapseSpaces aff))

/-- The candidate affiliation pool of `_lookup_author`
(data_graph.py:889-896) on the no-database path: the paper-extracted
affiliations, whitespace-collapsed and deduplicated in order. -/
def poolAffs (affs : List String) : List String :=
  affs.foldl (fun acc s =>
    if s = "" then acc
    else
      let ss := collapseSpaces s
      if acc.contains ss then acc else acc ++ [ss]) []

/-- The candidate scan of `_lookup_author` (data_graph.py:897-905): first
fetched candidate and first pooled affiliation whose
`_best_aff_match_for_institution` succeeds. -/
def lookupAuthorViaOrcid (cands : List Scholar) (affs : List String) :
    Option (String × Scholar × (MatchKind × AffEntry)) :=
  cands.findSome? (fun cand =>
    (poolAffs affs).findSome? (fun aff =>
      match best_aff_match_for_institution aff cand with
      | some b => some (aff, cand, b)
      | none => none))

/-- Python dict assignment on an association list: replace the binding in
place when the key exists, else append. -/
def dictInsert {α : Type} (l : List (String × α)) (k : String) (v : α) :
    List (String × α) :=
  if l.any (fun p => p.1 == k) then
    l.map (fun p => if p.1 == k then (p.1, v) else p)
  else l ++ [(k, v)]

/-- `orcid_aff_meta.setdefault(name, {})[norm_key] = meta`. -/
def dictInsertNested (l : List (String × List (String × OrcidMeta)))
    (name nk : String) (meta : OrcidMeta) :
    List (String × List (String × OrcidMeta)) :=
  dictInsert l name (dictInsert ((l.lookup name).getD []) nk meta)

/-- The source's `process_orcid_for_paper` (data_graph.py:802-957) with the
ORCID candidate fetch `_orcid_candidates_by_name` as a parameter: a paper
without authors or without extracted affiliations is returned unchanged;
otherwise each author with a non-empty name and non-empty affiliation list
is looked up, and matches accumulate `orcid_by_author` and
`orcid_aff_meta`, attached only when non-empty. -/
def processOrcidForPaper (cands : String → List Scholar) (paper : Paper) : Paper :=
  if paper.authors.isEmpty || paper.author_affiliations.isEmpty then paper
  else
    let results := paper.author_affiliations.foldl
      (fun (acc : List (String × String) × List (String × List (String × OrcidMeta))) item =>
        let name := pyStrip item.name
        let affs := item.affiliations.filter (fun a => a ≠ "")
        if name == "" || affs.isEmpty then acc
        else
          match lookupAuthorViaOrcid (cands name) affs with
          | none => acc
          | some (affUsed, cand, best) =>
            let acc1 := match cand.orcid_id with
              | some oid => if oid ≠ "" then dictInsert acc.1 name oid else acc.1
              | none => acc.1
            let roleTitle := pyStrip best.2.role
            let dept := pyStrip best.2.department
            let role : Option String :=
              if roleTitle ≠ "" ∧ dept ≠ "" then
                some (roleTitle ++ " (" ++ dept ++ ")")
              else if roleTitle ≠ "" then some roleTitle
              else none
            let sd := parseOrcidDateStr (best.2.start_date.getD "")
            let ed := parseOrcidDateStr (best.2.end_date.getD "")
            (acc1, dictInsertNested acc.2 name (orcidNormKey affUsed)
              { role := role, start_date := sd, end_date := ed }))
      ([], [])
    let e1 := if results.1.isEmpty then paper
              else { paper with orcid_by_author := results.1 }
    if results.2.isEmpty then e1 else { e1 with orcid_aff_meta := results.2 }

/-- An empty ORCID candidate feed, used by witnesses. -/
def candsEmpty : String → List Scholar := fun _ => []

/-- A raw fetched paper (no extracted affiliations yet), used by the C1
counterexample. -/
def paperA : Paper := { id := "2504.00001", authors := ["Alice"], pdf_url := some "u" }

/-- A raw fetched paper with two authors, used by the C6 counterexample. -/
def paperC6 : Paper :=
  { id := "2504.00002", authors := ["Alice Smith", "Bob Lee"], pdf_url := some "u" }

/-! ## The persistence boundary: `upsert_papers` (src/src/agent/data_graph.py:972-1204)

The relational store is a record of typed row lists; `BIGSERIAL` ids come
from a shared `next_id` counter (SQL ids are positive, so the source's
`if not author_id` falsy guards never fire and are not modelled), inserts
append, SQL `UPDATE`s map over the matching rows in place, and
`ON CONFLICT DO NOTHING` renders as find-before-insert. `DATE` values are
ISO strings compared lexicographically (chronological order on ISO dates),
so `LEAST`/`GREATEST` are `min`/`max`. The QS-ranking enrichment
(`_enrich_affiliation_from_qs`) touches only `affiliations.country` and the
`affiliation_rankings` table and is outside the modelled claims. -/

/-- A row of `papers` (schema at data_graph.py:1213). -/
structure PaperRow where
  id : Nat
  arxiv_entry : String
  paper_title : String := ""
  published : Option String := none
  updated : Option String := none
  abstract : String := ""
  pdf_source : Option String := none
deriving DecidableEq

/-- A row of `authors`. -/
structure AuthorRow where
  id : Nat
  author_name_en : String
  orcid : Option String := none
deriving DecidableEq

/-- A row of `affiliations` (the modelled columns). -/
structure AffiliationRow where
  id : Nat
  aff_name : String
deriving DecidableEq

/-- A row of `author_paper`. -/
structure AuthorPaperRow where
  author_id : Nat
  paper_id : Nat
  author_order : Nat
deriving DecidableEq

/-- A row of `categories`. -/
structure CategoryRow where
  id : Nat
  category : String
deriving DecidableEq

/-- A row of `paper_category`. -/
structure PaperCategoryRow where
  paper_id : Nat
  category_id : Nat
deriving DecidableEq

/-- A row of `author_affiliation`. -/
structure AuthorAffiliationRow where
  author_id : Nat
  affiliation_id : Nat
  role : Option String := none
  start_date : Option String := none
  end_date : Option String := none
  latest_time : Option String := none
deriving DecidableEq

/-- The relational store. -/
structure DB where
  papers : List PaperRow := []
  authors : List AuthorRow := []
  affiliations : List AffiliationRow := []
  author_paper : List AuthorPaperRow := []
  categories : List CategoryRow := []
  paper_category : List PaperCategoryRow := []
  author_affiliation : List AuthorAffiliationRow := []
  next_id : Nat := 1
deriving DecidableEq

/-- The source's `_iso_to_date` (data_graph.py:204): first ten characters
of a non-empty ISO timestamp. -/
def isoToDate : Option String → Option String
  | none => none
  | some s => if s = "" then none else some ⟨s.data.take 10⟩

/-- SQL `COALESCE(column, value)`: fill only when the column is NULL. -/
def coalesceStr : Option String → String → Option String
  | some x, _ => some x
  | none, v => some v

/-- `GREATEST(COALESCE(old, new), new)` with SQL semantics (`GREATEST`
ignores NULLs): the running latest date (data_graph.py:1168). -/
def greatestMerge (old new : Option String) : Option String :=
  match old, new with
  | some a, some b => some (max a b)
  | some a, none => some a
  | none, some b => some b
  | none, none => none

/-- The `UNIQUE (paper_title, published)` constraint of the `papers` table
(data_graph.py:1222): a fresh row collides when some existing row carries
the same title and the same non-NULL published date (SQL `NULL` never
equals `NULL`, so a missing date never collides). -/
def titleDateConflict (db : DB) (title : String) (pub : Option String) : Bool :=
  match pub with
  | none => false
  | some d => db.papers.any (fun r => r.paper_title == title && r.published == some d)

/-- Phase 1 of the per-paper upsert (data_graph.py:1008-1050):
`INSERT ... ON CONFLICT (arxiv_entry) DO NOTHING RETURNING id`.  Three
outcomes are reachable for a single sequential writer:
an existing row with the same `arxiv_entry` arbitrates the conflict clause
(no exception), the follow-up `SELECT ... WHERE arxiv_entry = %s` at line
1026 re-finds it and the paper counts as skipped; otherwise a row with the
same `(paper_title, published)` key violates the table's other UNIQUE
constraint, which the conflict clause does not arbitrate, so the INSERT
raises, the handler's `SELECT ... WHERE arxiv_entry = %s` (line 1043) finds
nothing and the `continue` at line 1048 drops the paper without touching
either counter (`none` below); otherwise the row is inserted and counted.
The `SELECT ... WHERE paper_title = %s AND published = %s` fallback at
lines 1031-1039 is unreachable for a single writer (the empty RETURNING
with no exception implies an `arxiv_entry` hit) and has no branch here.
Returns (paper id if any, store, inserted, skipped). -/
def insertPaperPhase (p : Paper) (db : DB) (ins skip : Nat) :
    Option Nat × DB × Nat × Nat :=
  match db.papers.find? (fun r => r.arxiv_entry == p.id) with
  | some r => (some r.id, db, ins, skip + 1)
  | none =>
    if titleDateConflict db p.title (isoToDate p.published_at) then
      (none, db, ins, skip)
    else
      (some db.next_id,
       { db with
          papers := db.papers ++
            [{ id := db.next_id, arxiv_entry := p.id, paper_title := p.title,
               published := isoToDate p.published_at, updated := isoToDate p.updated_at,
               abstract := p.summary, pdf_source := p.pdf_url }],
          next_id := db.next_id + 1 },
       ins + 1, skip)

/-- Author lookup-or-insert (data_graph.py:1057-1065): `SELECT id FROM
authors WHERE author_name_en = %s LIMIT 1`, else `INSERT ... RETURNING id`.
Returns the store and the author id. -/
def authorFindOrInsert (db : DB) (nm : String) : DB × Nat :=
  match db.authors.find? (fun r => r.author_name_en == nm) with
  | some r => (db, r.id)
  | none =>
    ({ db with
        authors := db.authors ++
          [{ id := db.next_id, author_name_en := nm, orcid := none }],
        next_id := db.next_id + 1 }, db.next_id)

/-- The conditional orcid fill (data_graph.py:1070-1078): for a truthy
enrichment value, `UPDATE authors SET orcid = COALESCE(orcid, %s) WHERE
id = %s`. -/
def authorFillOrcid (aid : Nat) (ob? : Option String) (db : DB) : DB :=
  match ob? with
  | some ob =>
    if ob ≠ "" then
      { db with
          authors := db.authors.map (fun r =>
            if r.id = aid then { r with orcid := coalesceStr r.orcid ob } else r) }
    else db
  | none => db

/-- `INSERT INTO author_paper ... ON CONFLICT (author_id, paper_id) DO
NOTHING` (data_graph.py:1079-1086). -/
def apInsert (aid pid idx : Nat) (db : DB) : DB :=
  if db.author_paper.any (fun ap => ap.author_id == aid && ap.paper_id == pid) then db
  else
    { db with
        author_paper := db.author_paper ++
          [{ author_id := aid, paper_id := pid, author_order := idx }] }

/-- One iteration of the author phase (data_graph.py:1055-1086): find or
insert the author row, record the name→id binding, conservatively fill
`orcid`, and insert the `author_paper` edge. -/
def authorStep (pid : Nat) (obmap : List (String × String))
    (acc : DB × List (String × Nat)) (idxName : Nat × String) : DB × List (String × Nat) :=
  let fi := authorFindOrInsert acc.1 idxName.2
  (apInsert fi.2 pid idxName.1 (authorFillOrcid fi.2 (obmap.lookup idxName.2) fi.1),
   (idxName.2, fi.2) :: acc.2)

/-- Category lookup-or-insert (data_graph.py:1090-1107). -/
def categoryFindOrInsert (db : DB) (cat : String) : DB × Nat :=
  match db.categories.find? (fun r => r.category == cat) with
  | some r => (db, r.id)
  | none =>
    ({ db with
        categories := db.categories ++ [{ id := db.next_id, category := cat }],
        next_id := db.next_id + 1 }, db.next_id)

/-- One iteration of the category phase (data_graph.py:1089-1116): find or
insert the category, then the `paper_category` edge with
`ON CONFLICT DO NOTHING`. -/
def categoryStep (pid : Nat) (db : DB) (cat : String) : DB :=
  let fi := categoryFindOrInsert db cat
  if fi.1.paper_category.any (fun pc => pc.paper_id == pid && pc.category_id == fi.2) then fi.1
  else
    { fi.1 with paper_category := fi.1.paper_category ++
        [{ paper_id := pid, category_id := fi.2 }] }

/-- SQL `REPLACE(LOWER(aff_name), ' ', '')`, the case/space-insensitive
affiliation key (equal to the worker's `cleaned.replace(" ", "").lower()`
on the whitespace-collapsed name). -/
def sqlNormAff (s : String) : String :=
  ⟨(s.data.map asciiLower).filter (fun c => c ≠ ' ')⟩

/-- SQL `UPDATE author_affiliation ... WHERE author_id = %s AND
affiliation_id = %s`, rendered as an in-place map over the matching rows. -/
def mapAA (db : DB) (aid affId : Nat) (f : AuthorAffiliationRow → AuthorAffiliationRow) : DB :=
  { db with
      author_affiliation := db.author_affiliation.map (fun aa =>
        if aa.author_id = aid ∧ aa.affiliation_id = affId then f aa else aa) }

/-- Affiliation lookup-or-insert by normalised key (data_graph.py:1132-1157):
select by `REPLACE(LOWER(aff_name), ' ', '')`, else insert the cleaned
display name. -/
def affFindOrInsert (db : DB) (cleaned normKey : String) : DB × Nat :=
  match db.affiliations.find? (fun r => sqlNormAff r.aff_name == normKey) with
  | some r => (db, r.id)
  | none =>
    ({ db with
        affiliations := db.affiliations ++ [{ id := db.next_id, aff_name := cleaned }],
        next_id := db.next_id + 1 }, db.next_id)

/-- The `author_affiliation` upsert (data_graph.py:1163-1171):
`INSERT ... ON CONFLICT (author_id, affiliation_id) DO UPDATE SET
latest_time = GREATEST(COALESCE(author_affiliation.latest_time,
EXCLUDED.latest_time), EXCLUDED.latest_time)`. -/
def aaUpsertLatest (aid affId : Nat) (published : Option String) (db : DB) : DB :=
  if db.author_affiliation.any
      (fun aa => aa.author_id == aid && aa.affiliation_id == affId) then
    mapAA db aid affId (fun aa =>
      { aa with latest_time := greatestMerge aa.latest_time published })
  else
    { db with
        author_affiliation := db.author_affiliation ++
          [{ author_id := aid, affiliation_id := affId, latest_time := published }] }

/-- `UPDATE author_affiliation SET role = COALESCE(role, %s)` for a truthy
role (data_graph.py:1177-1184). -/
def aaApplyRole (aid affId : Nat) (role? : Option String) (db : DB) : DB :=
  match role? with
  | some r =>
    if r ≠ "" then mapAA db aid affId (fun aa => { aa with role := coalesceStr aa.role r })
    else db
  | none => db

/-- `UPDATE author_affiliation SET start_date = LEAST(COALESCE(start_date,
%s), %s)` for a truthy start date (data_graph.py:1185-1192). -/
def aaApplyStart (aid affId : Nat) (sd? : Option String) (db : DB) : DB :=
  match sd? with
  | some sd =>
    if sd ≠ "" then
      mapAA db aid affId (fun aa =>
        { aa with start_date := some (match aa.start_date with
            | some a => min a sd
            | none => sd) })
    else db
  | none => db

/-- `UPDATE author_affiliation SET end_date = GREATEST(COALESCE(end_date,
%s), %s)` for a truthy end date (data_graph.py:1193-1200). -/
def aaApplyEnd (aid affId : Nat) (ed? : Option String) (db : DB) : DB :=
  match ed? with
  | some ed =>
    if ed ≠ "" then
      mapAA db aid affId (fun aa =>
        { aa with end_date := some (match aa.end_date with
            | some a => max a ed
            | none => ed) })
    else db
  | none => db

/-- One affiliation of one author in the affiliation phase
(data_graph.py:1126-1200): skip empty strings, find the affiliation by
normalised key or insert the cleaned name, upsert the `author_affiliation`
edge merging `latest_time` by `GREATEST`, then apply the ORCID metadata
conservatively (role, start, end, in source order). -/
def affJoinStep (published : Option String)
    (metaFor : String → Option OrcidMeta) (aid : Nat) (db : DB) (affName : String) : DB :=
  if affName = "" then db
  else
    let normKey := sqlNormAff (collapseSpaces affName)
    let fi := affFindOrInsert db (collapseSpaces affName) normKey
    let db2 := aaUpsertLatest aid fi.2 published fi.1
    match metaFor normKey with
    | none => db2
    | some m =>
      aaApplyEnd aid fi.2 m.end_date
        (aaApplyStart aid fi.2 m.start_date (aaApplyRole aid fi.2 m.role db2))

/-- One item of the affiliation phase (data_graph.py:1119-1125): skip blank
or unknown author names, then process the item's affiliation strings. -/
def affItemStep (published : Option String) (p : Paper)
    (amap : List (String × Nat)) (db : DB) (item : AuthorAff) : DB :=
  let name := pyStrip item.name
  if name = "" then db
  else
    match amap.lookup name with
    | none => db
    | some aid =>
      item.affiliations.foldl
        (affJoinStep published
          (fun nk => ((p.orcid_aff_meta.lookup name).getD []).lookup nk) aid) db

/-- Result of one per-paper upsert: the store plus the counters. -/
structure UpsertResult where
  db : DB
  inserted : Nat
  skipped : Nat
deriving DecidableEq

/-- The per-paper body of the source's `upsert_papers` loop
(data_graph.py:998-1200): insert the paper (counting inserted/skipped);
when no paper id was obtained the `continue` statements at
data_graph.py:1039/1048/1051 drop the record; otherwise authors and
`author_paper` edges in order, then categories, then affiliations with
conservative field merges. -/
def upsertPaper (p : Paper) (db : DB) (ins skip : Nat) : UpsertResult :=
  let r1 := insertPaperPhase p db ins skip
  match r1.1 with
  | none => { db := r1.2.1, inserted := r1.2.2.1, skipped := r1.2.2.2 }
  | some pid =>
    let r2 := (p.authors.enum.map (fun x => (x.1 + 1, x.2))).foldl
      (authorStep pid p.orcid_by_author) (r1.2.1, [])
    let db3 := p.categories.foldl (categoryStep pid) r2.1
    let db4 := p.author_affiliations.foldl
      (affItemStep (isoToDate p.published_at) p r2.2) db3
    { db := db4, inserted := r1.2.2.1, skipped := r1.2.2.2 }

/-- A fully enriched paper used by the upsert witnesses. -/
def paperU : Paper :=
  { id := "2504.00003", title := "T", summary := "A",
    published_at := some "2025-04-01T00:00:00Z",
    pdf_url := some "u", authors := ["Alice", "Bob"], categories := ["cs.AI"],
    author_affiliations := [{ name := "Alice", affiliations := ["Lab One"] },
                            { name := "Bob", affiliations := [] }],
    orcid_by_author := [("Alice", "0000-0001")],
    orcid_aff_meta := [("Alice", [("labone",
      { role := some "Prof", start_date := some "2020-01-01",
        end_date := some "2024-01-01" })])] }

/-- A pre-populated store used by the C8 witness: one author with a known
orcid and one `author_affiliation` row with all fields set. -/
def dbW : DB :=
  { papers := [],
    authors := [{ id := 1, author_name_en := "Alice", orcid := some "0000-9999" }],
    affiliations := [{ id := 2, aff_name := "Lab One" }],
    author_affiliation := [{ author_id := 1,
                             affiliation_id := 2,
                             role := some "Director",
                             start_date := some "2018-01-01",
                             end_date := some "2023-01-01",
                             latest_time := some "2024-06-01" }],
    next_id := 3 }

/-- A store holding a paper with the same title and published date as
`paperU` but a different arXiv id: inserting `paperU` violates
`UNIQUE (paper_title, published)` and the record is dropped uncounted. -/
def dbConflict : DB :=
  { papers := [{ id := 1, arxiv_entry := "2401.99999", paper_title := "T",
                 published := some "2025-04-01" }],
    next_id := 2 }

/-- A paper row with the given arXiv id exists. -/
def PaperPresent (P : List PaperRow) (arxiv : String) : Prop :=
  ∃ r ∈ P, (r.arxiv_entry == arxiv) = true

/-- An author row with the given name exists. -/
def NamePresent (A : List AuthorRow) (nm : String) : Prop :=
  ∃ r ∈ A, (r.author_name_en == nm) = true

/-- An affiliation row with the given normalised key exists. -/
def AffKeyPresent (F : List AffiliationRow) (k : String) : Prop :=
  ∃ r ∈ F, (sqlNormAff r.aff_name == k) = true

/-- Conservative evolution of one `authors` row: the id and name never
change and a non-null `orcid` is never overwritten. -/
def OrcidConserve (r r2 : AuthorRow) : Prop :=
  r2.id = r.id ∧ r2.author_name_en = r.author_name_en ∧
  ∀ x, r.orcid = some x → r2.orcid = some x

/-- Conservative evolution of one `author_affiliation` row: the key never
changes, a non-null `role` is never overwritten, `start_date` only
decreases, `end_date` and `latest_time` only increase (dates in the ISO
string order). -/
def AAConserve (a a2 : AuthorAffiliationRow) : Prop :=
  a2.author_id = a.author_id ∧ a2.affiliation_id = a.affiliation_id ∧
  (∀ x, a.role = some x → a2.role = some x) ∧
  (∀ x, a.start_date = some x → ∃ y, a2.start_date = some y ∧ y ≤ x) ∧
  (∀ x, a.end_date = some x → ∃ y, a2.end_date = some y ∧ x ≤ y) ∧
  (∀ x, a.latest_time = some x → ∃ y, a2.latest_time = some y ∧ x ≤ y)

/-- List evolution: every pre-existing row (by position) relates to its
successor; new rows may only be appended after them. -/
def Evolves {α : Type} (rel : α → α → Prop) (l l2 : List α) : Prop :=
  List.Forall₂ rel l (l2.take l.length)

/-- Store evolution for the conservatively updated tables. -/
def DBConserve (db db2 : DB) : Prop :=
  Evolves OrcidConserve db.authors db2.authors ∧
  Evolves AAConserve db.author_affiliation db2.author_affiliation

/-! ## The resume manager (src/src/agent/resume_manager.py)

Per-item progress records of one session form a JSON dict
`paper_id -> record`; the embedding is an association list in insertion
order. `processing_time` (seconds, a float) is modelled in integral
milliseconds; Python's `if processing_time:` truthiness is `≠ 0`. -/

/-- The `ProcessingStatus` enum (resume_manager.py:18). -/
inductive ProcessingStatus where
  | pending
  | in_progress
  | completed
  | failed
  | api_exhausted
  | paused
deriving DecidableEq

/-- The `PaperProcessingRecord` dataclass (resume_manager.py:27). -/
structure PaperProcessingRecord where
  paper_id : String
  status : ProcessingStatus
  attempts : Nat := 0
  last_attempt_time : Option String := none
  error_message : Option String := none
  processing_time : Option Nat := none
deriving DecidableEq

/-- The per-session record store: a dict `paper_id -> record`. -/
abbrev Records := List (String × PaperProcessingRecord)

/-- Truthiness of an optional string (`if error_message:`). -/
def truthyS : Option String → Bool
  | none => false
  | some s => s ≠ ""

/-- Truthiness of an optional duration (`if processing_time:`, with `0.0` falsy). -/
def truthyN : Option Nat → Bool
  | none => false
  | some n => n ≠ 0

/-- The `ResumeManager.get_pending_papers` query (resume_manager.py:212):
ids of records whose status is `pending` or `failed`. -/
def getPendingPapers (records : Records) : List String :=
  (records.filter (fun pr =>
    pr.2.status == ProcessingStatus.pending || pr.2.status == ProcessingStatus.failed)).map
    (fun pr => pr.1)

/-- The in-place mutation of one record performed by `update_paper_status`
(resume_manager.py:272-280), with `now` the current UTC timestamp. -/
def applyStatusUpdate (st : ProcessingStatus) (em : Option String) (pt : Option Nat)
    (now : String) (r : PaperProcessingRecord) : PaperProcessingRecord :=
  { r with
    status := st
    last_attempt_time := some now
    attempts := r.attempts + 1
    error_message := if truthyS em then em else r.error_message
    processing_time := if truthyN pt then pt else r.processing_time }

/-- In-place update of the one dict entry whose key is `pid` (`records[paper_id]`
is mutated; all other entries are untouched). -/
def touchKey (pid : String) (g : PaperProcessingRecord → PaperProcessingRecord)
    (pr : String × PaperProcessingRecord) : String × PaperProcessingRecord :=
  if pr.1 == pid then (pr.1, g pr.2) else pr

/-- The `ResumeManager.update_paper_status` mutation of a session's records
(resume_manager.py:263-282): create a fresh record when the id is absent,
then bump status, timestamp and attempt count in place. -/
def updatePaperStatus (records : Records) (pid : String) (st : ProcessingStatus)
    (em : Option String) (pt : Option Nat) (now : String) : Records :=
  let records1 :=
    if (records.lookup pid).isSome then records
    else records ++ [(pid, { paper_id := pid, status := st })]
  records1.map (touchKey pid (applyStatusUpdate st em pt now))

/-- Attempt count recorded for an id (0 when the id is absent). -/
def attemptsOf (records : Records) (pid : String) : Nat :=
  ((records.lookup pid).map (fun r => r.attempts)).getD 0

/-- A concrete session store used by witnesses: one completed, one failed,
one pending item. -/
def recsW : Records :=
  [("p1", { paper_id := "p1", status := ProcessingStatus.completed, attempts := 2 }),
   ("p2", { paper_id := "p2", status := ProcessingStatus.failed, attempts := 1 }),
   ("p3", { paper_id := "p3", status := ProcessingStatus.pending })]

/-- Concrete scholar profile used by witnesses (short strings keep the
kernel evaluation of the ratio computation small). -/
def schW : Scholar :=
  { employments := [{ organization := "Lab", role := "Prof" }] }

/-- Concrete QS directory row used by witnesses. -/
def qsRecW : QsRec := { name := "Lab", country := "X" }

/-- Concrete QS fuzzy-candidate pool used by witnesses. -/
def qsNamesW : List QsItem :=
  [{ name := "Lab", record := qsRecW, norms := ["lab"] }]

/-! ### Lemmas about the record store -/

theorem touchKey_eq (pid : String) (g : PaperProcessingRecord → PaperProcessingRecord)
    (v : PaperProcessingRecord) :
    touchKey pid g (pid, v) = (pid, g v) := by
  simp [touchKey]

theorem touchKey_ne (pid k : String) (g : PaperProcessingRecord → PaperProcessingRecord)
    (v : PaperProcessingRecord) (h : k ≠ pid) :
    touchKey pid g (k, v) = (k, v) := by
  simp [touchKey, h]

theorem lookup_map_key (pid : String) (g : PaperProcessingRecord → PaperProcessingRecord)
    (l : Records) :
    (l.map (touchKey pid g)).lookup pid = (l.lookup pid).map g := by
  induction l with
  | nil => rfl
  | cons hd tl ih =>
    obtain ⟨k, v⟩ := hd
    by_cases h : k = pid
    · subst h
      rw [List.map_cons, touchKey_eq]
      simp [List.lookup, ih]
    · have hbeq : (pid == k) = false := by
        simp only [beq_eq_false_iff_ne, ne_eq]
        exact fun he => h he.symm
      rw [List.map_cons, touchKey_ne pid k g v h]
      simp [List.lookup, hbeq, ih]

theorem lookup_map_other (pid q : String) (hq : q ≠ pid)
    (g : PaperProcessingRecord → PaperProcessingRecord) (l : Records) :
    (l.map (touchKey pid g)).lookup q = l.lookup q := by
  induction l with
  | nil => rfl
  | cons hd tl ih =>
    obtain ⟨k, v⟩ := hd
    by_cases h : k = pid
    · subst h
      have hbeq : (q == k) = false := by
        simp only [beq_eq_false_iff_ne, ne_eq]
        exact hq
      rw [List.map_cons, touchKey_eq]
      simp [List.lookup, hbeq, ih]
    · rw [List.map_cons, touchKey_ne pid k g v h]
      by_cases h2 : q = k
      · subst h2
        simp [List.lookup]
      · have hbeq2 : (q == k) = false := by
          simp only [beq_eq_false_iff_ne, ne_eq]
          exact h2
        simp [List.lookup, hbeq2, ih]

theorem lookup_append_right (l : Records) (pid : String) (v : PaperProcessingRecord)
    (h : l.lookup pid = none) :
    (l ++ [(pid, v)]).lookup pid = some v := by
  induction l with
  | nil => simp [List.lookup]
  | cons hd tl ih =>
    obtain ⟨k, v⟩ := hd
    by_cases hh : pid = k
    · simp [List.lookup, hh] at h
    · have hbeq : (pid == k) = false := by
        simp only [beq_eq_false_iff_ne, ne_eq]
        exact hh
      simp only [List.cons_append, List.lookup, hbeq] at h ⊢
      exact ih h

theorem lookup_append_other (l : Records) (pid q : String) (v : PaperProcessingRecord)
    (hq : q ≠ pid) :
    (l ++ [(pid, v)]).lookup q = l.lookup q := by
  induction l with
  | nil =>
    have hbeq : (q == pid) = false := by
      simp only [beq_eq_false_iff_ne, ne_eq]
      exact hq
    simp [List.lookup, hbeq]
  | cons hd tl ih =>
    obtain ⟨k, v⟩ := hd
    by_cases hh : q = k
    · simp [List.lookup, hh]
    · have hbeq : (q == k) = false := by
        simp only [beq_eq_false_iff_ne, ne_eq]
        exact hh
      simp [List.lookup, hbeq, ih]

/-- C2: `get_pending_papers` returns exactly the item identifiers whose recorded
status is `pending` or `failed`; in particular an identifier whose record is
`completed` is never in the returned list. -/
theorem get_pending_papers_spec (records : Records) (pid : String) :
    pid ∈ getPendingPapers records ↔
      ∃ r, (pid, r) ∈ records ∧
        (r.status = ProcessingStatus.pending ∨ r.status = ProcessingStatus.failed) := by
  unfold getPendingPapers
  simp only [List.mem_map, List.mem_filter]
  constructor
  · rintro ⟨⟨k, v⟩, ⟨hmem, hcond⟩, hk⟩
    simp only at hk
    subst hk
    refine ⟨v, hmem, ?_⟩
    simpa [beq_iff_eq] using hcond
  · rintro ⟨r, hmem, hst⟩
    refine ⟨(pid, r), ⟨hmem, ?_⟩, rfl⟩
    simpa [beq_iff_eq] using hst

/-- Witness for C2 at a concrete store: the failed item is pending-eligible. -/
theorem get_pending_papers_spec_witness :
    "p2" ∈ getPendingPapers recsW ↔
      ∃ r, ("p2", r) ∈ recsW ∧
        (r.status = ProcessingStatus.pending ∨ r.status = ProcessingStatus.failed) :=
  get_pending_papers_spec recsW "p2"

/-- C9: every `update_paper_status` call increments the target item's attempt
count by exactly one (hence the count strictly increases and is never lowered),
and the records of all other ids are untouched. -/
theorem update_paper_status_attempts (records : Records) (pid : String)
    (st : ProcessingStatus) (em : Option String) (pt : Option Nat) (now : String) :
    attemptsOf (updatePaperStatus records pid st em pt now) pid =
      attemptsOf records pid + 1 ∧
    ∀ q, q ≠ pid →
      (updatePaperStatus records pid st em pt now).lookup q = records.lookup q := by
  unfold updatePaperStatus attemptsOf
  by_cases hs : (records.lookup pid).isSome
  · simp only [hs, if_true]
    refine ⟨?_, ?_⟩
    · rw [lookup_map_key]
      obtain ⟨r, hr⟩ := Option.isSome_iff_exists.mp hs
      rw [hr]
      simp [applyStatusUpdate]
    · intro q hq
      rw [lookup_map_other pid q hq]
  · have hnone : records.lookup pid = none := Option.not_isSome_iff_eq_none.mp hs
    have hs2 : (records.lookup pid).isSome = false := by
      rw [hnone]
      rfl
    simp only [hs2, Bool.false_eq_true, if_false]
    refine ⟨?_, ?_⟩
    · rw [lookup_map_key, lookup_append_right _ _ _ hnone, hnone]
      simp [applyStatusUpdate]
    · intro q hq
      rw [lookup_map_other pid q hq, lookup_append_other _ _ _ _ hq]

/-- Witness for C9 at a concrete store and id. -/
theorem update_paper_status_attempts_witness :
    attemptsOf (updatePaperStatus recsW "p2" ProcessingStatus.in_progress none none "t0") "p2" =
      attemptsOf recsW "p2" + 1 ∧
    ∀ q, q ≠ "p2" →
      (updatePaperStatus recsW "p2" ProcessingStatus.in_progress none none "t0").lookup q =
        recsW.lookup q :=
  update_paper_status_attempts recsW "p2" ProcessingStatus.in_progress none none "t0"

/-- C10: calling `update_paper_status` with an id absent from the session's
records does not fail and does not drop the update: it creates a fresh record
with the given status, last-attempt timestamp set, attempt count 1, and leaves
every other id's record unchanged. -/
theorem update_paper_status_absent (records : Records) (pid : String)
    (st : ProcessingStatus) (em : Option String) (pt : Option Nat) (now : String)
    (h : records.lookup pid = none) :
    (updatePaperStatus records pid st em pt now).lookup pid =
      some { paper_id := pid, status := st, attempts := 1,
             last_attempt_time := some now,
             error_message := if truthyS em then em else none,
             processing_time := if truthyN pt then pt else none } ∧
    ∀ q, q ≠ pid →
      (updatePaperStatus records pid st em pt now).lookup q = records.lookup q := by
  unfold updatePaperStatus
  have hs : (records.lookup pid).isSome = false := by
    rw [h]
    rfl
  simp only [hs, Bool.false_eq_true, if_false]
  refine ⟨?_, ?_⟩
  · rw [lookup_map_key, lookup_append_right _ _ _ h]
    simp [applyStatusUpdate]
  · intro q hq
    rw [lookup_map_other pid q hq, lookup_append_other _ _ _ _ hq]

/-- Witness for C10: updating an id that is not in the store creates its record. -/
theorem update_paper_status_absent_witness :
    recsW.lookup "p9" = none ∧
    ((updatePaperStatus recsW "p9" ProcessingStatus.failed (some "boom") none "t1").lookup "p9" =
      some { paper_id := "p9", status := ProcessingStatus.failed, attempts := 1,
             last_attempt_time := some "t1",
             error_message := if truthyS (some "boom") then some "boom" else none,
             processing_time := if truthyN none then none else none } ∧
    ∀ q, q ≠ "p9" →
      (updatePaperStatus recsW "p9" ProcessingStatus.failed (some "boom") none "t1").lookup q =
        recsW.lookup q) :=
  ⟨by decide,
   update_paper_status_absent recsW "p9" ProcessingStatus.failed (some "boom") none "t1"
     (by decide)⟩

/-! ### Lemmas about the matcher folds -/

theorem foldl_keep (l : List String) (init : ℚ) :
    l.foldl (fun b _ => b) init = init := by
  induction l generalizing init with
  | nil => rfl
  | cons hd tl ih => simp [ih init]

theorem scoreOne_nil (org dept : String) : scoreOne [] org dept = 0 := by
  unfold scoreOne
  simp only [List.foldl_nil]
  rw [foldl_keep]
  by_cases hd : dept = ""
  · simp [hd]
  · simp [hd, foldl_keep]

theorem bestEntry_fold_inv (score : AffEntry → ℚ) (l : List AffEntry)
    (acc : Option AffEntry × ℚ) :
    (∀ e ∈ l, score e ≤ (l.foldl (bestStep score) acc).2) ∧
    acc.2 ≤ (l.foldl (bestStep score) acc).2 ∧
    ((l.foldl (bestStep score) acc) = acc ∨
      ∃ e ∈ l, (l.foldl (bestStep score) acc).1 = some e ∧
        (l.foldl (bestStep score) acc).2 = score e) := by
  induction l generalizing acc with
  | nil => simp
  | cons hd tl ih =>
    simp only [List.foldl_cons]
    obtain ⟨ih1, ih2, ih3⟩ := ih (bestStep score acc hd)
    have hstep_le : acc.2 ≤ (bestStep score acc hd).2 := by
      unfold bestStep
      by_cases h : acc.2 < score hd
      · simp only [if_pos h]
        exact le_of_lt h
      · simp only [if_neg h]
        exact le_refl _
    have hhd_le : score hd ≤ (bestStep score acc hd).2 := by
      unfold bestStep
      by_cases h : acc.2 < score hd
      · simp only [if_pos h]
        exact le_refl _
      · simp only [if_neg h]
        exact le_of_not_lt h
    refine ⟨?_, le_trans hstep_le ih2, ?_⟩
    · intro e he
      rcases List.mem_cons.mp he with rfl | he2
      · exact le_trans hhd_le ih2
      · exact ih1 e he2
    · rcases ih3 with heq | ⟨e, he, h1, h2⟩
      · by_cases h : acc.2 < score hd
        · right
          refine ⟨hd, List.mem_cons_self _ _, ?_, ?_⟩
          · rw [heq]
            unfold bestStep
            simp only [if_pos h]
          · rw [heq]
            unfold bestStep
            simp only [if_pos h]
        · left
          rw [heq]
          unfold bestStep
          simp only [if_neg h]
      · right
        exact ⟨e, List.mem_cons_of_mem _ he, h1, h2⟩

theorem bestEntry_le (score : AffEntry → ℚ) (l : List AffEntry) :
    ∀ e ∈ l, score e ≤ (bestEntry score l).2 :=
  (bestEntry_fold_inv score l (none, 0)).1

theorem bestEntry_some (score : AffEntry → ℚ) (l : List AffEntry) (e : AffEntry)
    (h : (bestEntry score l).1 = some e) :
    e ∈ l ∧ (bestEntry score l).2 = score e := by
  rcases (bestEntry_fold_inv score l (none, 0)).2.2 with heq | ⟨e2, he2, h1, h2⟩
  · rw [show bestEntry score l = l.foldl (bestStep score) (none, 0) from rfl, heq] at h
    cases h
  · rw [show bestEntry score l = l.foldl (bestStep score) (none, 0) from rfl] at h
    rw [h1] at h
    injection h with h
    subst h
    exact ⟨he2, h2⟩

theorem bestEntry_none (score : AffEntry → ℚ) (l : List AffEntry)
    (h : (bestEntry score l).1 = none) : (bestEntry score l).2 = 0 := by
  rcases (bestEntry_fold_inv score l (none, 0)).2.2 with heq | ⟨e2, _, h1, _⟩
  · rw [show bestEntry score l = l.foldl (bestStep score) (none, 0) from rfl, heq]
  · rw [show bestEntry score l = l.foldl (bestStep score) (none, 0) from rfl] at h
    rw [h1] at h
    cases h

theorem pickMatch_emp_some (e : AffEntry) (s1 : ℚ) (edu : Option AffEntry × ℚ)
    (h : mkRat 86 100 ≤ s1) :
    pickMatch (some e, s1) edu = some (MatchKind.employment, e) := by
  unfold pickMatch
  simp [h]

theorem pickMatch_spec (emp edu : Option AffEntry × ℚ) (k : MatchKind) (e : AffEntry)
    (h : pickMatch emp edu = some (k, e)) :
    (k = MatchKind.employment ∧ emp.1 = some e ∧ mkRat 86 100 ≤ emp.2) ∨
    (k = MatchKind.education ∧ edu.1 = some e ∧ mkRat 86 100 ≤ edu.2) := by
  obtain ⟨o1, s1⟩ := emp
  obtain ⟨o2, s2⟩ := edu
  cases o1 with
  | some e1 =>
    unfold pickMatch at h
    dsimp only at h
    by_cases h1 : mkRat 86 100 ≤ s1
    · rw [if_pos h1] at h
      dsimp only at h
      injection h with h
      injection h with hk he
      subst hk
      subst he
      exact Or.inl ⟨rfl, rfl, h1⟩
    · rw [if_neg h1] at h
      dsimp only at h
      cases o2 with
      | some e2 =>
        dsimp only at h
        by_cases h2 : mkRat 86 100 ≤ s2
        · rw [if_pos h2] at h
          injection h with h
          injection h with hk he
          subst hk
          subst he
          exact Or.inr ⟨rfl, rfl, h2⟩
        · rw [if_neg h2] at h
          cases h
      | none => cases h
  | none =>
    unfold pickMatch at h
    dsimp only at h
    cases o2 with
    | some e2 =>
      dsimp only at h
      by_cases h2 : mkRat 86 100 ≤ s2
      · rw [if_pos h2] at h
        injection h with h
        injection h with hk he
        subst hk
        subst he
        exact Or.inr ⟨rfl, rfl, h2⟩
      · rw [if_neg h2] at h
        cases h
    | none => cases h

theorem pickMatch_none (emp edu : Option AffEntry × ℚ)
    (h1 : emp.1 = none ∨ emp.2 < mkRat 86 100)
    (h2 : edu.1 = none ∨ edu.2 < mkRat 86 100) :
    pickMatch emp edu = none := by
  obtain ⟨o1, s1⟩ := emp
  obtain ⟨o2, s2⟩ := edu
  dsimp only at h1 h2
  unfold pickMatch
  dsimp only
  cases o1 with
  | some e1 =>
    rcases h1 with h1 | h1
    · cases h1
    · dsimp only
      rw [if_neg (not_le.mpr h1)]
      dsimp only
      cases o2 with
      | some e2 =>
        rcases h2 with h2 | h2
        · cases h2
        · dsimp only
          rw [if_neg (not_le.mpr h2)]
      | none => rfl
  | none =>
    dsimp only
    cases o2 with
    | some e2 =>
      rcases h2 with h2 | h2
      · cases h2
      · dsimp only
        rw [if_neg (not_le.mpr h2)]
    | none => rfl

/-- C3: `best_aff_match_for_institution` keeps the single highest-scoring
entry per list (any returned entry is a maximum of its list and clears the
0.86 threshold), returns an employment entry whenever some employment entry
clears 0.86 (even if an education entry scores higher), and returns nothing
when neither list clears 0.86 — never an entry scoring below 0.86. -/
theorem best_aff_match_spec (aff_name : String) (scholar : Scholar) :
    (∀ k e, best_aff_match_for_institution aff_name scholar = some (k, e) →
      mkRat 86 100 ≤ matchScore aff_name e ∧
      ((k = MatchKind.employment ∧ e ∈ scholar.employments ∧
          ∀ e2 ∈ scholar.employments, matchScore aff_name e2 ≤ matchScore aff_name e) ∨
       (k = MatchKind.education ∧ e ∈ scholar.educations ∧
          ∀ e2 ∈ scholar.educations, matchScore aff_name e2 ≤ matchScore aff_name e))) ∧
    ((∃ e ∈ scholar.employments, mkRat 86 100 ≤ matchScore aff_name e) →
      ∃ e, best_aff_match_for_institution aff_name scholar =
        some (MatchKind.employment, e)) ∧
    ((∀ e ∈ scholar.employments, matchScore aff_name e < mkRat 86 100) →
     (∀ e ∈ scholar.educations, matchScore aff_name e < mkRat 86 100) →
      best_aff_match_for_institution aff_name scholar = none) := by
  by_cases h0 : normalize_aff_variants aff_name = []
  · have hres : best_aff_match_for_institution aff_name scholar = none := by
      unfold best_aff_match_for_institution
      rw [if_pos h0]
    refine ⟨?_, ?_, ?_⟩
    · intro k e h
      rw [hres] at h
      cases h
    · rintro ⟨e, _, hsc⟩
      unfold matchScore at hsc
      rw [h0, scoreOne_nil] at hsc
      exact absurd hsc (by decide)
    · intro _ _
      exact hres
  · have hres : best_aff_match_for_institution aff_name scholar =
        pickMatch (bestEntry (matchScore aff_name) scholar.employments)
          (bestEntry (matchScore aff_name) scholar.educations) := by
      unfold best_aff_match_for_institution
      rw [if_neg h0]
    refine ⟨?_, ?_, ?_⟩
    · intro k e h
      rw [hres] at h
      rcases pickMatch_spec _ _ _ _ h with ⟨hk, hsome, hth⟩ | ⟨hk, hsome, hth⟩
      · obtain ⟨hmem, heq⟩ := bestEntry_some _ _ _ hsome
        rw [heq] at hth
        refine ⟨hth, Or.inl ⟨hk, hmem, ?_⟩⟩
        intro e2 he2
        have := bestEntry_le (matchScore aff_name) scholar.employments e2 he2
        rw [heq] at this
        exact this
      · obtain ⟨hmem, heq⟩ := bestEntry_some _ _ _ hsome
        rw [heq] at hth
        refine ⟨hth, Or.inr ⟨hk, hmem, ?_⟩⟩
        intro e2 he2
        have := bestEntry_le (matchScore aff_name) scholar.educations e2 he2
        rw [heq] at this
        exact this
    · rintro ⟨e, he, hsc⟩
      have hle : mkRat 86 100 ≤ (bestEntry (matchScore aff_name) scholar.employments).2 :=
        le_trans hsc (bestEntry_le _ _ e he)
      cases hE : (bestEntry (matchScore aff_name) scholar.employments).1 with
      | none =>
        rw [bestEntry_none _ _ hE] at hle
        exact absurd hle (by decide)
      | some e1 =>
        refine ⟨e1, ?_⟩
        rw [hres]
        have hpair : bestEntry (matchScore aff_name) scholar.employments =
            (some e1, (bestEntry (matchScore aff_name) scholar.employments).2) := by
          rw [← hE]
        rw [hpair]
        exact pickMatch_emp_some e1 _ _ hle
    · intro hemp hedu
      rw [hres]
      apply pickMatch_none
      · cases hE : (bestEntry (matchScore aff_name) scholar.employments).1 with
        | none => exact Or.inl rfl
        | some e1 =>
          obtain ⟨hmem, heq⟩ := bestEntry_some _ _ _ hE
          right
          rw [heq]
          exact hemp e1 hmem
      · cases hE : (bestEntry (matchScore aff_name) scholar.educations).1 with
        | none => exact Or.inl rfl
        | some e1 =>
          obtain ⟨hmem, heq⟩ := bestEntry_some _ _ _ hE
          right
          rw [heq]
          exact hedu e1 hmem

set_option maxRecDepth 4000 in
/-- Witness for C3: a profile whose single employment entry scores 1.0
against the target institution is returned as an employment match. -/
theorem best_aff_match_spec_witness :
    (∃ e ∈ schW.employments, mkRat 86 100 ≤ matchScore "Lab" e) ∧
    ∃ e, best_aff_match_for_institution "Lab" schW = some (MatchKind.employment, e) :=
  ⟨by decide, (best_aff_match_spec "Lab" schW).2.1 (by decide)⟩

theorem foldl_max_init_le (l : List ℚ) (init : ℚ) : init ≤ l.foldl max init := by
  induction l generalizing init with
  | nil => simp
  | cons hd tl ih =>
    simp only [List.foldl_cons]
    exact le_trans (le_max_left init hd) (ih (max init hd))

theorem mem_le_foldl_max : ∀ (l : List ℚ) (init a : ℚ), a ∈ l → a ≤ l.foldl max init := by
  intro l
  induction l with
  | nil =>
    intro init a h
    cases h
  | cons hd tl ih =>
    intro init a h
    simp only [List.foldl_cons]
    rcases List.mem_cons.mp h with rfl | h2
    · exact le_trans (le_max_right init a) (foldl_max_init_le tl _)
    · exact ih _ a h2

theorem ratio_le_maxPairRatio (ts ks : List String) (t k : String)
    (ht : t ∈ ts) (hk : k ∈ ks) : ratioStr t k ≤ maxPairRatio ts ks := by
  unfold maxPairRatio
  apply mem_le_foldl_max
  simp only [List.mem_flatMap, List.mem_map]
  exact ⟨t, ht, k, hk, rfl⟩

theorem mem_fuzzyTriples (qsNames : List QsItem) (targets : List String)
    (x : QsItem × String × String) (h : x ∈ fuzzyTriples qsNames targets) :
    x.1 ∈ qsNames ∧ x.2.1 ∈ targets ∧ x.2.2 ∈ x.1.norms := by
  unfold fuzzyTriples at h
  simp only [List.mem_flatMap, List.mem_map] at h
  obtain ⟨it, hit, t, ht, k, hk, rfl⟩ := h
  exact ⟨hit, ht, hk⟩

theorem fuzzy_fold_inv (qsNames : List QsItem) (targets : List String) :
    ∀ (l : List (QsItem × String × String)),
      (∀ x ∈ l, x.1 ∈ qsNames ∧ x.2.1 ∈ targets ∧ x.2.2 ∈ x.1.norms) →
      ∀ (acc : Option QsRec × ℚ),
        (acc.1 = none ∨ ∃ it ∈ qsNames, acc.1 = some it.record ∧
          ∃ t ∈ targets, ∃ k ∈ it.norms, ratioStr t k = acc.2) →
        ((l.foldl fuzzyStep acc).1 = none ∨
          ∃ it ∈ qsNames, (l.foldl fuzzyStep acc).1 = some it.record ∧
            ∃ t ∈ targets, ∃ k ∈ it.norms, ratioStr t k = (l.foldl fuzzyStep acc).2) := by
  intro l
  induction l with
  | nil =>
    intro _ acc hacc
    exact hacc
  | cons hd tl ih =>
    intro hl acc hacc
    simp only [List.foldl_cons]
    apply ih (fun x hx => hl x (List.mem_cons_of_mem _ hx))
    obtain ⟨h1, h2, h3⟩ := hl hd (List.mem_cons_self _ _)
    unfold fuzzyStep
    dsimp only
    by_cases hlt : acc.2 < ratioStr hd.2.1 hd.2.2
    · rw [if_pos hlt]
      exact Or.inr ⟨hd.1, h1, rfl, hd.2.1, h2, hd.2.2, h3, rfl⟩
    · rw [if_neg hlt]
      exact hacc

/-- C4: in `find_qs_record_for_aff`, an exact normalised-variant hit or an
exact acronym hit short-circuits the similarity search and wins; a record
returned by the fuzzy path always belongs to the candidate pool and its best
pairwise similarity against the target's variant set is at least 0.84, so a
candidate scoring below 0.84 is never returned by that path. -/
theorem find_qs_spec (name : String) (qsMap : List (String × QsRec))
    (qsNames : List QsItem) :
    (∀ r, firstVariantHit (normalize_aff_variants name) qsMap = some r →
      find_qs_record_for_aff name qsMap qsNames = some r) ∧
    (firstVariantHit (normalize_aff_variants name) qsMap = none →
      ∀ r, acronymHit name qsMap = some r →
        find_qs_record_for_aff name qsMap qsNames = some r) ∧
    (firstVariantHit (normalize_aff_variants name) qsMap = none →
     acronymHit name qsMap = none →
     ∀ r, find_qs_record_for_aff name qsMap qsNames = some r →
       ∃ it ∈ qsNames, it.record = r ∧
         mkRat 84 100 ≤ maxPairRatio (fuzzyTargets name) it.norms) := by
  refine ⟨?_, ?_, ?_⟩
  · intro r h
    unfold find_qs_record_for_aff
    rw [h]
  · intro h1 r h2
    unfold find_qs_record_for_aff
    rw [h1, h2]
  · intro h1 h2 r hr
    unfold find_qs_record_for_aff at hr
    rw [h1, h2] at hr
    dsimp only at hr
    by_cases ht : fuzzyTargets name = []
    · rw [if_pos ht] at hr
      cases hr
    · rw [if_neg ht] at hr
      have hinv := fuzzy_fold_inv qsNames (fuzzyTargets name)
        (fuzzyTriples qsNames (fuzzyTargets name))
        (fun x hx => mem_fuzzyTriples _ _ x hx)
        ((none : Option QsRec), (0 : ℚ)) (Or.inl rfl)
      rcases hE : (fuzzyTriples qsNames (fuzzyTargets name)).foldl fuzzyStep
          ((none : Option QsRec), (0 : ℚ)) with ⟨o, sc⟩
      rw [hE] at hr hinv
      cases o with
      | none => cases hr
      | some r2 =>
        dsimp only at hr
        rcases hinv with hnone | ⟨it, hit, hsome, t, htm, k, hkm, hratio⟩
        · cases hnone
        · dsimp only at hsome hratio
          injection hsome with hsome
          by_cases hth : mkRat 84 100 ≤ sc
          · rw [if_pos hth] at hr
            injection hr with hr
            refine ⟨it, hit, by rw [← hsome, hr], ?_⟩
            calc mkRat 84 100 ≤ sc := hth
              _ = ratioStr t k := hratio.symm
              _ ≤ maxPairRatio (fuzzyTargets name) it.norms :=
                  ratio_le_maxPairRatio _ _ _ _ htm hkm
          · rw [if_neg hth] at hr
            cases hr

set_option maxRecDepth 4000 in
/-- Witness for C4: with an empty key map, the fuzzy path returns the
candidate whose stored variant matches the target exactly, and the theorem
yields its 0.84 bound. -/
theorem find_qs_spec_witness :
    firstVariantHit (normalize_aff_variants "Lab") [] = none ∧
    acronymHit "Lab" [] = none ∧
    find_qs_record_for_aff "Lab" [] qsNamesW = some qsRecW ∧
    ∃ it ∈ qsNamesW, it.record = qsRecW ∧
      mkRat 84 100 ≤ maxPairRatio (fuzzyTargets "Lab") it.norms :=
  ⟨by decide, by decide, by decide,
   (find_qs_spec "Lab" [] qsNamesW).2.2 (by decide) (by decide) qsRecW (by decide)⟩

/-- C5 counterexample: `normalize_aff_variants` does NOT contain the acronym.
For the input `"MIT Lab"` the acronym built by `build_acronym` is `"ml"`,
but the variant list is `["mitlab"]`, which does not contain it. -/
theorem normalize_variants_acronym_counterexample :
    build_acronym "MIT Lab" = "ml" ∧
    "ml" ∉ normalize_aff_variants "MIT Lab" := by
  constructor
  · rfl
  · decide

theorem mem_addUnique_self (l : List String) (x : String) : x ∈ addUnique l x := by
  unfold addUnique
  by_cases h : l.contains x
  · rw [if_pos h]
    exact List.mem_of_elem_eq_true h
  · rw [if_neg h]
    exact List.mem_append_right _ (List.mem_singleton.mpr rfl)

/-- C5 amended: the acronym (first letter of each letter-run token, skipping
the stop words of/and/for/at/in/on) is not part of the set returned by
`normalize_aff_variants`; it is computed separately by `build_acronym` and
added to the lookup key set of the directory search — whenever the acronym
is non-empty it is among the fuzzy-match targets of
`find_qs_record_for_aff`. -/
theorem acronym_in_fuzzy_targets (name : String) (h : build_acronym name ≠ "") :
    build_acronym name ∈ fuzzyTargets name := by
  unfold fuzzyTargets
  rw [if_pos h]
  exact mem_addUnique_self _ _

/-- Witness for the amended C5 at the counterexample input. -/
theorem acronym_in_fuzzy_targets_witness :
    build_acronym "MIT Lab" ≠ "" ∧ build_acronym "MIT Lab" ∈ fuzzyTargets "MIT Lab" :=
  ⟨by decide, acronym_in_fuzzy_targets "MIT Lab" (by decide)⟩

/-- C1 counterexample: the coordinator is a single flat fan-out, not a
two-stage one. For one raw paper, the identity-registry task is emitted in
the same dispatch batch as the affiliation-extraction task (so not after it
completes), even though the record's extraction yields zero affiliations. -/
theorem dispatch_two_stage_counterexample :
    dispatch_affiliations [paperA] =
      [Job.processSinglePaper paperA, Job.processOrcidForPaper paperA] ∧
    (processSinglePaper paperA "page text"
        (some [{ name := "Alice", affiliations := [] }])).author_affiliations =
      [{ name := "Alice", affiliations := [] }] := by
  constructor
  · rfl
  · rfl

/-- C1 amended: `dispatch_affiliations` emits, in one flat batch, exactly one
affiliation-extraction task and one identity-registry task per raw record
(both receiving the raw record); the two-stage behaviour lives inside the
identity-registry worker itself, which returns a record unchanged when it
has no extracted affiliations. -/
theorem dispatch_flat_fanout (raw : List Paper) (p : Paper)
    (cands : String → List Scholar) :
    (Job.processSinglePaper p ∈ dispatch_affiliations raw ↔ p ∈ raw) ∧
    (Job.processOrcidForPaper p ∈ dispatch_affiliations raw ↔ p ∈ raw) ∧
    (p.author_affiliations = [] → processOrcidForPaper cands p = p) := by
  refine ⟨?_, ?_, ?_⟩
  · by_cases hr : raw = []
    · subst hr
      simp [dispatch_affiliations]
    · unfold dispatch_affiliations
      rw [if_neg hr]
      simp [List.mem_flatten]
  · by_cases hr : raw = []
    · subst hr
      simp [dispatch_affiliations]
    · unfold dispatch_affiliations
      rw [if_neg hr]
      simp [List.mem_flatten]
  · intro h
    unfold processOrcidForPaper
    simp [h]

/-- Witness for the amended C1 at a concrete raw batch and paper. -/
theorem dispatch_flat_fanout_witness :
    (Job.processOrcidForPaper paperA ∈ dispatch_affiliations [paperA] ↔
      paperA ∈ [paperA]) ∧
    processOrcidForPaper candsEmpty paperA = paperA :=
  ⟨(dispatch_flat_fanout [paperA] paperA candsEmpty).2.1,
   (dispatch_flat_fanout [paperA] paperA candsEmpty).2.2 rfl⟩

/-- C6 counterexample: on empty extracted text (or parse failure) the
affiliation worker returns a fragment whose `author_affiliations` list is
EMPTY — it does not contain one empty-affiliation entry per author. -/
theorem process_single_paper_counterexample :
    paperC6.authors = ["Alice Smith", "Bob Lee"] ∧
    (processSinglePaper paperC6 "" none).author_affiliations = [] ∧
    (processSinglePaper paperC6 "" none).author_affiliations.length ≠
      paperC6.authors.length := by
  refine ⟨rfl, rfl, by decide⟩

/-- C6 amended: the worker never fails a record — on empty extracted text or
a failed parse it returns the record with an empty `author_affiliations`
list (no per-author entries, all other fields unchanged); on a successful
parse it returns one entry per author of the record, in order. -/
theorem process_single_paper_failure (paper : Paper) (text : String)
    (llm : Option (List LlmAuthorEntry)) :
    ((text = "" ∨ llm = none) →
      processSinglePaper paper text llm = { paper with author_affiliations := [] }) ∧
    (∀ entries, llm = some entries → text ≠ "" → paper.authors.isEmpty = false →
      optStrFalsy paper.pdf_url = false →
      (processSinglePaper paper text llm).author_affiliations.map AuthorAff.name =
        paper.authors) := by
  constructor
  · intro h
    unfold processSinglePaper
    by_cases h1 : paper.authors.isEmpty || optStrFalsy paper.pdf_url
    · rw [if_pos h1]
    · rw [if_neg h1]
      rcases h with rfl | rfl
      · rw [if_pos rfl]
      · by_cases h2 : text = ""
        · rw [if_pos h2]
        · rw [if_neg h2]
  · intro entries hllm htext hauthors hpdf
    subst hllm
    unfold processSinglePaper
    rw [hauthors, hpdf]
    simp only [Bool.or_self, Bool.false_eq_true, if_false, if_neg htext]
    simp only [List.map_map]
    exact List.map_id'' (fun _ => rfl) paper.authors

/-- Witness for the amended C6: both branches at concrete inputs. -/
theorem process_single_paper_failure_witness :
    processSinglePaper paperC6 "" none = { paperC6 with author_affiliations := [] } ∧
    (processSinglePaper paperC6 "Alice Smith MIT"
        (some [{ name := "Alice Smith", affiliations := ["MIT"] }])).author_affiliations.map
      AuthorAff.name = paperC6.authors :=
  ⟨(process_single_paper_failure paperC6 "" none).1 (Or.inl rfl),
   (process_single_paper_failure paperC6 "Alice Smith MIT"
       (some [{ name := "Alice Smith", affiliations := ["MIT"] }])).2
     [{ name := "Alice Smith", affiliations := ["MIT"] }] rfl (by decide) (by decide)
     (by decide)⟩

/-! ### Conservation of the upsert (C8) -/

theorem orcidConserve_refl (r : AuthorRow) : OrcidConserve r r :=
  ⟨rfl, rfl, fun _ h => h⟩

theorem orcidConserve_trans {a b c : AuthorRow}
    (h1 : OrcidConserve a b) (h2 : OrcidConserve b c) : OrcidConserve a c :=
  ⟨h2.1.trans h1.1, h2.2.1.trans h1.2.1, fun x hx => h2.2.2 x (h1.2.2 x hx)⟩

theorem aaConserve_refl (a : AuthorAffiliationRow) : AAConserve a a :=
  ⟨rfl, rfl, fun _ h => h,
   fun x hx => ⟨x, hx, le_refl x⟩,
   fun x hx => ⟨x, hx, le_refl x⟩,
   fun x hx => ⟨x, hx, le_refl x⟩⟩

theorem aaConserve_trans {a b c : AuthorAffiliationRow}
    (h1 : AAConserve a b) (h2 : AAConserve b c) : AAConserve a c := by
  obtain ⟨i1, j1, r1, s1, e1, t1⟩ := h1
  obtain ⟨i2, j2, r2, s2, e2, t2⟩ := h2
  refine ⟨i2.trans i1, j2.trans j1, fun x hx => r2 x (r1 x hx), ?_, ?_, ?_⟩
  · intro x hx
    obtain ⟨y, hy, hyx⟩ := s1 x hx
    obtain ⟨z, hz, hzy⟩ := s2 y hy
    exact ⟨z, hz, le_trans hzy hyx⟩
  · intro x hx
    obtain ⟨y, hy, hxy⟩ := e1 x hx
    obtain ⟨z, hz, hyz⟩ := e2 y hy
    exact ⟨z, hz, le_trans hxy hyz⟩
  · intro x hx
    obtain ⟨y, hy, hxy⟩ := t1 x hx
    obtain ⟨z, hz, hyz⟩ := t2 y hy
    exact ⟨z, hz, le_trans hxy hyz⟩

theorem forall2_comp {α : Type} {R : α → α → Prop}
    (htrans : ∀ a b c, R a b → R b c → R a c) :
    ∀ {l1 l2 l3 : List α}, List.Forall₂ R l1 l2 → List.Forall₂ R l2 l3 →
      List.Forall₂ R l1 l3 := by
  intro l1 l2 l3 h12
  induction h12 generalizing l3 with
  | nil =>
    intro h23
    cases h23
    exact List.Forall₂.nil
  | cons hab h ih =>
    intro h23
    cases h23 with
    | cons hbc h2 => exact List.Forall₂.cons (htrans _ _ _ hab hbc) (ih h2)

theorem forall2_take {α : Type} {R : α → α → Prop} :
    ∀ (n : Nat) {l1 l2 : List α}, List.Forall₂ R l1 l2 →
      List.Forall₂ R (l1.take n) (l2.take n) := by
  intro n l1 l2 h
  induction h generalizing n with
  | nil =>
    simp only [List.take_nil]
    exact List.Forall₂.nil
  | cons hab h ih =>
    cases n with
    | zero =>
      simp only [List.take_zero]
      exact List.Forall₂.nil
    | succ m =>
      simp only [List.take_succ_cons]
      exact List.Forall₂.cons hab (ih m)

theorem evolves_refl {α : Type} {rel : α → α → Prop} (h : ∀ a : α, rel a a)
    (l : List α) : Evolves rel l l := by
  unfold Evolves
  rw [List.take_length]
  exact List.forall₂_same.mpr (fun a _ => h a)

theorem evolves_append {α : Type} {rel : α → α → Prop} (h : ∀ a : α, rel a a)
    (l t : List α) : Evolves rel l (l ++ t) := by
  unfold Evolves
  rw [List.take_left]
  exact List.forall₂_same.mpr (fun a _ => h a)

theorem evolves_map {α : Type} {rel : α → α → Prop} (f : α → α)
    (h : ∀ a : α, rel a (f a)) (l : List α) : Evolves rel l (l.map f) := by
  unfold Evolves
  have hl : (l.map f).take l.length = l.map f := by
    rw [← List.length_map l f, List.take_length]
  rw [hl]
  exact List.forall₂_map_right_iff.mpr (List.forall₂_same.mpr (fun a _ => h a))

theorem evolves_trans {α : Type} {rel : α → α → Prop}
    (htrans : ∀ a b c : α, rel a b → rel b c → rel a c)
    {l1 l2 l3 : List α} (h12 : Evolves rel l1 l2) (h23 : Evolves rel l2 l3) :
    Evolves rel l1 l3 := by
  unfold Evolves at h12 h23 ⊢
  have hlen : l1.length ≤ l2.length := by
    have h := h12.length_eq
    rw [List.length_take] at h
    exact min_eq_left_iff.mp h.symm
  have h23t := forall2_take l1.length h23
  rw [List.take_take, min_eq_left hlen] at h23t
  exact forall2_comp htrans h12 h23t

theorem dbConserve_refl (db : DB) : DBConserve db db :=
  ⟨evolves_refl orcidConserve_refl _, evolves_refl aaConserve_refl _⟩

theorem dbConserve_trans {a b c : DB} (h1 : DBConserve a b) (h2 : DBConserve b c) :
    DBConserve a c := by
  refine ⟨evolves_trans ?_ h1.1 h2.1, evolves_trans ?_ h1.2 h2.2⟩
  · intro x y z hxy hyz
    exact orcidConserve_trans hxy hyz
  · intro x y z hxy hyz
    exact aaConserve_trans hxy hyz

theorem dbConserve_of_eq {a b : DB} (hA : b.authors = a.authors)
    (hB : b.author_affiliation = a.author_affiliation) : DBConserve a b := by
  constructor
  · rw [hA]
    exact evolves_refl orcidConserve_refl _
  · rw [hB]
    exact evolves_refl aaConserve_refl _

theorem insertPaperPhase_conserve (p : Paper) (db : DB) (ins skip : Nat) :
    DBConserve db (insertPaperPhase p db ins skip).2.1 := by
  apply dbConserve_of_eq <;>
    (unfold insertPaperPhase; split <;> first | rfl | (split <;> rfl))

theorem orcidFill_row_conserve (aid : Nat) (ob : String) (r : AuthorRow) :
    OrcidConserve r (if r.id = aid then { r with orcid := coalesceStr r.orcid ob } else r) := by
  by_cases h : r.id = aid
  · rw [if_pos h]
    refine ⟨rfl, rfl, fun x hx => ?_⟩
    show coalesceStr r.orcid ob = some x
    rw [hx]
    rfl
  · rw [if_neg h]
    exact orcidConserve_refl r

theorem authorFindOrInsert_conserve (db : DB) (nm : String) :
    DBConserve db (authorFindOrInsert db nm).1 := by
  unfold authorFindOrInsert
  split
  · exact dbConserve_refl db
  · exact ⟨evolves_append orcidConserve_refl _ _, evolves_refl aaConserve_refl _⟩

theorem authorFillOrcid_conserve (aid : Nat) (ob? : Option String) (db : DB) :
    DBConserve db (authorFillOrcid aid ob? db) := by
  unfold authorFillOrcid
  split
  · split
    · exact ⟨evolves_map _ (orcidFill_row_conserve aid _) _,
             evolves_refl aaConserve_refl _⟩
    · exact dbConserve_refl db
  · exact dbConserve_refl db

theorem apInsert_conserve (aid pid idx : Nat) (db : DB) :
    DBConserve db (apInsert aid pid idx db) := by
  unfold apInsert
  split
  · exact dbConserve_refl db
  · exact dbConserve_of_eq rfl rfl

theorem authorStep_conserve (pid : Nat) (obmap : List (String × String))
    (acc : DB × List (String × Nat)) (x : Nat × String) :
    DBConserve acc.1 (authorStep pid obmap acc x).1 := by
  unfold authorStep
  exact dbConserve_trans (authorFindOrInsert_conserve acc.1 x.2)
    (dbConserve_trans (authorFillOrcid_conserve _ _ _) (apInsert_conserve _ _ _ _))

theorem categoryStep_conserve (pid : Nat) (db : DB) (cat : String) :
    DBConserve db (categoryStep pid db cat) := by
  have h1 : DBConserve db (categoryFindOrInsert db cat).1 := by
    apply dbConserve_of_eq <;> (unfold categoryFindOrInsert; split <;> rfl)
  refine dbConserve_trans h1 ?_
  unfold categoryStep
  dsimp only
  split
  · exact dbConserve_refl _
  · exact dbConserve_of_eq rfl rfl

theorem mapAA_conserve (db : DB) (aid affId : Nat)
    (f : AuthorAffiliationRow → AuthorAffiliationRow)
    (hf : ∀ aa, AAConserve aa (f aa)) : DBConserve db (mapAA db aid affId f) := by
  refine ⟨evolves_refl orcidConserve_refl _, ?_⟩
  show Evolves AAConserve db.author_affiliation
    (db.author_affiliation.map (fun aa =>
      if aa.author_id = aid ∧ aa.affiliation_id = affId then f aa else aa))
  apply evolves_map
  intro aa
  by_cases h : aa.author_id = aid ∧ aa.affiliation_id = affId
  · rw [if_pos h]
    exact hf aa
  · rw [if_neg h]
    exact aaConserve_refl aa

theorem affFindOrInsert_conserve (db : DB) (cleaned normKey : String) :
    DBConserve db (affFindOrInsert db cleaned normKey).1 := by
  apply dbConserve_of_eq <;> (unfold affFindOrInsert; split <;> rfl)

theorem aaUpsertLatest_conserve (aid affId : Nat) (published : Option String)
    (db : DB) : DBConserve db (aaUpsertLatest aid affId published db) := by
  unfold aaUpsertLatest
  split
  · apply mapAA_conserve
    intro aa
    refine ⟨rfl, rfl, fun x hx => hx, fun x hx => ⟨x, hx, le_refl x⟩,
            fun x hx => ⟨x, hx, le_refl x⟩, fun x hx => ?_⟩
    show ∃ y, greatestMerge aa.latest_time published = some y ∧ x ≤ y
    rw [hx]
    cases published with
    | none => exact ⟨x, rfl, le_refl x⟩
    | some b => exact ⟨max x b, rfl, le_max_left x b⟩
  · exact ⟨evolves_refl orcidConserve_refl _, evolves_append aaConserve_refl _ _⟩

theorem aaApplyRole_conserve (aid affId : Nat) (role? : Option String) (db : DB) :
    DBConserve db (aaApplyRole aid affId role? db) := by
  unfold aaApplyRole
  split
  · split
    · apply mapAA_conserve
      intro aa
      refine ⟨rfl, rfl, fun x hx => ?_, fun x hx => ⟨x, hx, le_refl x⟩,
              fun x hx => ⟨x, hx, le_refl x⟩, fun x hx => ⟨x, hx, le_refl x⟩⟩
      show coalesceStr aa.role _ = some x
      rw [hx]
      rfl
    · exact dbConserve_refl db
  · exact dbConserve_refl db

theorem aaApplyStart_conserve (aid affId : Nat) (sd? : Option String) (db : DB) :
    DBConserve db (aaApplyStart aid affId sd? db) := by
  unfold aaApplyStart
  split
  · split
    · rename_i sd _
      apply mapAA_conserve
      intro aa
      refine ⟨rfl, rfl, fun x hx => hx, fun x hx => ?_,
              fun x hx => ⟨x, hx, le_refl x⟩, fun x hx => ⟨x, hx, le_refl x⟩⟩
      refine ⟨min x sd, ?_, min_le_left x sd⟩
      show some (match aa.start_date with
        | some a => min a sd
        | none => sd) = some (min x sd)
      rw [hx]
    · exact dbConserve_refl db
  · exact dbConserve_refl db

theorem aaApplyEnd_conserve (aid affId : Nat) (ed? : Option String) (db : DB) :
    DBConserve db (aaApplyEnd aid affId ed? db) := by
  unfold aaApplyEnd
  split
  · split
    · rename_i ed _
      apply mapAA_conserve
      intro aa
      refine ⟨rfl, rfl, fun x hx => hx, fun x hx => ⟨x, hx, le_refl x⟩,
              fun x hx => ?_, fun x hx => ⟨x, hx, le_refl x⟩⟩
      refine ⟨max x ed, ?_, le_max_left x ed⟩
      show some (match aa.end_date with
        | some a => max a ed
        | none => ed) = some (max x ed)
      rw [hx]
    · exact dbConserve_refl db
  · exact dbConserve_refl db

theorem affJoinStep_conserve (published : Option String)
    (metaFor : String → Option OrcidMeta) (aid : Nat) (db : DB) (affName : String) :
    DBConserve db (affJoinStep published metaFor aid db affName) := by
  unfold affJoinStep
  split
  · exact dbConserve_refl db
  · dsimp only
    refine dbConserve_trans
      (affFindOrInsert_conserve db (collapseSpaces affName)
        (sqlNormAff (collapseSpaces affName))) ?_
    refine dbConserve_trans
      (aaUpsertLatest_conserve aid
        (affFindOrInsert db (collapseSpaces affName)
          (sqlNormAff (collapseSpaces affName))).2 published
        (affFindOrInsert db (collapseSpaces affName)
          (sqlNormAff (collapseSpaces affName))).1) ?_
    split
    · exact dbConserve_refl _
    · rename_i m _
      refine dbConserve_trans
        (aaApplyRole_conserve aid
          (affFindOrInsert db (collapseSpaces affName)
            (sqlNormAff (collapseSpaces affName))).2 m.role _) ?_
      refine dbConserve_trans
        (aaApplyStart_conserve aid
          (affFindOrInsert db (collapseSpaces affName)
            (sqlNormAff (collapseSpaces affName))).2 m.start_date _) ?_
      exact aaApplyEnd_conserve aid
        (affFindOrInsert db (collapseSpaces affName)
          (sqlNormAff (collapseSpaces affName))).2 m.end_date _

theorem foldl_conserve_db {β : Type} (step : DB → β → DB)
    (hstep : ∀ db b, DBConserve db (step db b)) :
    ∀ (l : List β) (db : DB), DBConserve db (l.foldl step db) := by
  intro l
  induction l with
  | nil =>
    intro db
    exact dbConserve_refl db
  | cons hd tl ih =>
    intro db
    simp only [List.foldl_cons]
    exact dbConserve_trans (hstep db hd) (ih (step db hd))

theorem foldl_conserve_fst {β γ : Type} (step : DB × γ → β → DB × γ)
    (hstep : ∀ acc b, DBConserve acc.1 (step acc b).1) :
    ∀ (l : List β) (acc : DB × γ), DBConserve acc.1 (l.foldl step acc).1 := by
  intro l
  induction l with
  | nil =>
    intro acc
    exact dbConserve_refl acc.1
  | cons hd tl ih =>
    intro acc
    simp only [List.foldl_cons]
    exact dbConserve_trans (hstep acc hd) (ih (step acc hd))

theorem affItemStep_conserve (published : Option String) (p : Paper)
    (amap : List (String × Nat)) (db : DB) (item : AuthorAff) :
    DBConserve db (affItemStep published p amap db item) := by
  unfold affItemStep
  dsimp only
  split
  · exact dbConserve_refl db
  · split
    · exact dbConserve_refl db
    · rename_i aid _
      exact foldl_conserve_db _ (fun db2 b => affJoinStep_conserve _ _ aid db2 b) _ db

theorem upsertPaper_conserve (p : Paper) (db : DB) (ins skip : Nat) :
    DBConserve db (upsertPaper p db ins skip).db := by
  unfold upsertPaper
  dsimp only
  split
  · exact insertPaperPhase_conserve p db ins skip
  · rename_i pid hpid
    dsimp only
    refine dbConserve_trans (insertPaperPhase_conserve p db ins skip) ?_
    refine dbConserve_trans
      (foldl_conserve_fst
        (authorStep pid p.orcid_by_author)
        (fun acc b => authorStep_conserve _ _ acc b)
        (p.authors.enum.map (fun x => (x.1 + 1, x.2)))
        ((insertPaperPhase p db ins skip).2.1, [])) ?_
    refine dbConserve_trans
      (foldl_conserve_db (categoryStep pid)
        (fun db2 b => categoryStep_conserve _ db2 b) p.categories _) ?_
    exact foldl_conserve_db (affItemStep (isoToDate p.published_at) p _)
      (fun db2 b => affItemStep_conserve _ _ _ db2 b) p.author_affiliations _

/-- C8: the persisting step is conservative on existing rows. For every
pre-state and every enrichment input, every pre-existing `authors` row keeps
its id and name and never has a non-null `orcid` overwritten, and every
pre-existing `author_affiliation` row keeps its key, never has a non-null
`role` overwritten, and merges its date fields monotonically —
`start_date` can only decrease (`LEAST`), `end_date` and `latest_time` can
only increase (`GREATEST`). -/
theorem upsert_conservative (p : Paper) (db : DB) (ins skip : Nat) :
    List.Forall₂ OrcidConserve db.authors
      ((upsertPaper p db ins skip).db.authors.take db.authors.length) ∧
    List.Forall₂ AAConserve db.author_affiliation
      ((upsertPaper p db ins skip).db.author_affiliation.take
        db.author_affiliation.length) :=
  upsertPaper_conserve p db ins skip

/-- Witness for C8 at the concrete pre-populated store and enriched paper
(the pre-existing orcid, role and start date survive; the end and latest
dates only move forward). -/
theorem upsert_conservative_witness :
    List.Forall₂ OrcidConserve dbW.authors
      ((upsertPaper paperU dbW 0 0).db.authors.take dbW.authors.length) ∧
    List.Forall₂ AAConserve dbW.author_affiliation
      ((upsertPaper paperU dbW 0 0).db.author_affiliation.take
        dbW.author_affiliation.length) :=
  upsert_conservative paperU dbW 0 0

/-! ### Idempotence of the upsert (C7)

Running `upsertPaper` a second time on the same paper finds every row the
first run created: the paper by `arxiv_entry`, the authors by name, the
affiliations by normalised key.  The lemmas below track which rows each
phase can see (`PaperPresent`, `NamePresent`, `AffKeyPresent`), show the
first run establishes them and the second run, given them, inserts
nothing new. -/

theorem foldl_inv {α β γ : Type} (g : β → γ) (step : β → α → β)
    (h : ∀ b x, g (step b x) = g b) : ∀ (l : List α) (b : β), g (l.foldl step b) = g b := by
  intro l
  induction l with
  | nil => intro b; rfl
  | cons hd tl ih =>
    intro b
    rw [List.foldl_cons, ih, h]

theorem foldl_pres {α β : Type} (P : β → Prop) (step : β → α → β)
    (h : ∀ b x, P b → P (step b x)) : ∀ (l : List α) (b : β), P b → P (l.foldl step b) := by
  intro l
  induction l with
  | nil => intro b hb; exact hb
  | cons hd tl ih =>
    intro b hb
    rw [List.foldl_cons]
    exact ih _ (h b hd hb)

theorem lookup_mem_keys {β : Type} : ∀ (l : List (String × β)) (k : String) (v : β),
    l.lookup k = some v → k ∈ l.map Prod.fst := by
  intro l
  induction l with
  | nil => intro k v h; simp [List.lookup] at h
  | cons hd tl ih =>
    intro k v h
    rw [List.map_cons, List.mem_cons]
    rw [List.lookup] at h
    cases hk : (k == hd.1) with
    | true => exact Or.inl (eq_of_beq hk)
    | false =>
      rw [hk] at h
      exact Or.inr (ih k v h)

theorem mem_keys_lookup {β : Type} : ∀ (l : List (String × β)) (k : String),
    k ∈ l.map Prod.fst → ∃ v, l.lookup k = some v := by
  intro l
  induction l with
  | nil => intro k h; simp at h
  | cons hd tl ih =>
    intro k h
    rw [List.lookup]
    cases hk : (k == hd.1) with
    | true => exact ⟨hd.2, rfl⟩
    | false =>
      rw [List.map_cons, List.mem_cons] at h
      rcases h with h | h
      · exact absurd (by rw [h, beq_self_eq_true] at hk; exact hk) (by simp)
      · exact ih k h

theorem enumMap_snd (l : List String) :
    ((l.enum.map (fun y => (y.1 + 1, y.2))).map Prod.snd) = l := by
  rw [List.map_map]
  exact List.enum_map_snd l

theorem insertPaperPhase_of_present (p : Paper) (db : DB) (ins skip : Nat)
    (h : PaperPresent db.papers p.id) :
    (insertPaperPhase p db ins skip).2.1 = db ∧
    (insertPaperPhase p db ins skip).2.2.1 = ins ∧
    (insertPaperPhase p db ins skip).2.2.2 = skip + 1 ∧
    ∃ pid, (insertPaperPhase p db ins skip).1 = some pid := by
  obtain ⟨r, hr, hp⟩ := h
  have hs : (db.papers.find? (fun r => r.arxiv_entry == p.id)).isSome :=
    List.find?_isSome.mpr ⟨r, hr, hp⟩
  obtain ⟨r2, hf⟩ := Option.isSome_iff_exists.mp hs
  unfold insertPaperPhase
  rw [hf]
  exact ⟨rfl, rfl, rfl, r2.id, rfl⟩

theorem insertPaperPhase_estab (p : Paper) (db : DB) (ins skip : Nat) (pid : Nat)
    (h : (insertPaperPhase p db ins skip).1 = some pid) :
    PaperPresent (insertPaperPhase p db ins skip).2.1.papers p.id := by
  unfold insertPaperPhase at h ⊢
  cases hf : db.papers.find? (fun r => r.arxiv_entry == p.id) with
  | some r =>
    have hp := List.find?_some hf
    exact ⟨r, List.mem_of_find?_eq_some hf, hp⟩
  | none =>
    rw [hf] at h
    dsimp only at h
    by_cases hc : titleDateConflict db p.title (isoToDate p.published_at) = true
    · rw [if_pos hc] at h
      exact absurd h (by simp)
    · rw [if_neg hc]
      exact ⟨_, List.mem_append_right _ (List.mem_singleton.mpr rfl), by simp⟩

theorem insertPaperPhase_none (p : Paper) (db : DB) (ins skip : Nat)
    (h : (insertPaperPhase p db ins skip).1 = none) :
    (insertPaperPhase p db ins skip).2.1 = db ∧
    (insertPaperPhase p db ins skip).2.2.1 = ins ∧
    (insertPaperPhase p db ins skip).2.2.2 = skip := by
  unfold insertPaperPhase at h ⊢
  cases hf : db.papers.find? (fun r => r.arxiv_entry == p.id) with
  | some r =>
    rw [hf] at h
    dsimp only at h
    exact absurd h (by simp)
  | none =>
    rw [hf] at h
    dsimp only at h
    by_cases hc : titleDateConflict db p.title (isoToDate p.published_at) = true
    · rw [if_pos hc]
      exact ⟨rfl, rfl, rfl⟩
    · rw [if_neg hc] at h
      exact absurd h (by simp)

theorem authorFindOrInsert_papers (db : DB) (nm : String) :
    (authorFindOrInsert db nm).1.papers = db.papers := by
  unfold authorFindOrInsert
  cases db.authors.find? (fun r => r.author_name_en == nm) <;> rfl

theorem authorFindOrInsert_affs (db : DB) (nm : String) :
    (authorFindOrInsert db nm).1.affiliations = db.affiliations := by
  unfold authorFindOrInsert
  cases db.authors.find? (fun r => r.author_name_en == nm) <;> rfl

theorem authorFindOrInsert_of_present (db : DB) (nm : String)
    (h : NamePresent db.authors nm) : (authorFindOrInsert db nm).1 = db := by
  obtain ⟨r, hr, hp⟩ := h
  have hs : (db.authors.find? (fun r => r.author_name_en == nm)).isSome :=
    List.find?_isSome.mpr ⟨r, hr, hp⟩
  obtain ⟨r2, hf⟩ := Option.isSome_iff_exists.mp hs
  unfold authorFindOrInsert
  rw [hf]

theorem authorFindOrInsert_pres (db : DB) (nm nm' : String)
    (h : NamePresent db.authors nm') :
    NamePresent (authorFindOrInsert db nm).1.authors nm' := by
  obtain ⟨r, hr, hp⟩ := h
  unfold authorFindOrInsert
  cases db.authors.find? (fun r => r.author_name_en == nm) with
  | some r2 => exact ⟨r, hr, hp⟩
  | none => exact ⟨r, List.mem_append_left _ hr, hp⟩

theorem authorFindOrInsert_estab (db : DB) (nm : String) :
    NamePresent (authorFindOrInsert db nm).1.authors nm := by
  unfold authorFindOrInsert
  cases hf : db.authors.find? (fun r => r.author_name_en == nm) with
  | some r =>
    have hp := List.find?_some hf
    exact ⟨r, List.mem_of_find?_eq_some hf, hp⟩
  | none =>
    exact ⟨_, List.mem_append_right _ (List.mem_singleton.mpr rfl), by simp⟩

theorem authorFillOrcid_papers (aid : Nat) (ob? : Option String) (db : DB) :
    (authorFillOrcid aid ob? db).papers = db.papers := by
  unfold authorFillOrcid
  cases ob? with
  | none => rfl
  | some ob => dsimp only; split <;> rfl

theorem authorFillOrcid_affs (aid : Nat) (ob? : Option String) (db : DB) :
    (authorFillOrcid aid ob? db).affiliations = db.affiliations := by
  unfold authorFillOrcid
  cases ob? with
  | none => rfl
  | some ob => dsimp only; split <;> rfl

theorem authorFillOrcid_len (aid : Nat) (ob? : Option String) (db : DB) :
    (authorFillOrcid aid ob? db).authors.length = db.authors.length := by
  unfold authorFillOrcid
  cases ob? with
  | none => rfl
  | some ob =>
    dsimp only
    split
    · exact List.length_map _ _
    · rfl

theorem authorFillOrcid_pres (aid : Nat) (ob? : Option String) (db : DB) (nm : String)
    (h : NamePresent db.authors nm) :
    NamePresent (authorFillOrcid aid ob? db).authors nm := by
  obtain ⟨r, hr, hp⟩ := h
  unfold authorFillOrcid
  cases ob? with
  | none => exact ⟨r, hr, hp⟩
  | some ob =>
    dsimp only
    split
    · refine ⟨if r.id = aid then { r with orcid := coalesceStr r.orcid ob } else r,
        List.mem_map_of_mem _ hr, ?_⟩
      by_cases hid : r.id = aid
      · rw [if_pos hid]; exact hp
      · rw [if_neg hid]; exact hp
    · exact ⟨r, hr, hp⟩

theorem apInsert_papers (aid pid idx : Nat) (db : DB) :
    (apInsert aid pid idx db).papers = db.papers := by
  unfold apInsert
  split <;> rfl

theorem apInsert_authors (aid pid idx : Nat) (db : DB) :
    (apInsert aid pid idx db).authors = db.authors := by
  unfold apInsert
  split <;> rfl

theorem apInsert_affs (aid pid idx : Nat) (db : DB) :
    (apInsert aid pid idx db).affiliations = db.affiliations := by
  unfold apInsert
  split <;> rfl

theorem authorStep_papers (pid : Nat) (ob : List (String × String))
    (acc : DB × List (String × Nat)) (x : Nat × String) :
    (authorStep pid ob acc x).1.papers = acc.1.papers := by
  unfold authorStep
  dsimp only
  rw [apInsert_papers, authorFillOrcid_papers, authorFindOrInsert_papers]

theorem authorStep_affs (pid : Nat) (ob : List (String × String))
    (acc : DB × List (String × Nat)) (x : Nat × String) :
    (authorStep pid ob acc x).1.affiliations = acc.1.affiliations := by
  unfold authorStep
  dsimp only
  rw [apInsert_affs, authorFillOrcid_affs, authorFindOrInsert_affs]

theorem authorStep_pres (pid : Nat) (ob : List (String × String))
    (acc : DB × List (String × Nat)) (x : Nat × String) (nm : String)
    (h : NamePresent acc.1.authors nm) :
    NamePresent (authorStep pid ob acc x).1.authors nm := by
  unfold authorStep
  dsimp only
  rw [apInsert_authors]
  exact authorFillOrcid_pres _ _ _ _ (authorFindOrInsert_pres _ _ _ h)

theorem authorStep_estab (pid : Nat) (ob : List (String × String))
    (acc : DB × List (String × Nat)) (x : Nat × String) :
    NamePresent (authorStep pid ob acc x).1.authors x.2 := by
  unfold authorStep
  dsimp only
  rw [apInsert_authors]
  exact authorFillOrcid_pres _ _ _ _ (authorFindOrInsert_estab acc.1 x.2)

theorem authorStep_len (pid : Nat) (ob : List (String × String))
    (acc : DB × List (String × Nat)) (x : Nat × String)
    (h : NamePresent acc.1.authors x.2) :
    (authorStep pid ob acc x).1.authors.length = acc.1.authors.length := by
  unfold authorStep
  dsimp only
  rw [apInsert_authors, authorFillOrcid_len,
      authorFindOrInsert_of_present acc.1 x.2 h]

theorem authorStep_keys (pid : Nat) (ob : List (String × String))
    (acc : DB × List (String × Nat)) (x : Nat × String) :
    ((authorStep pid ob acc x).2.map Prod.fst) = x.2 :: acc.2.map Prod.fst := rfl

theorem authorsFold_papers (pid : Nat) (ob : List (String × String))
    (l : List (Nat × String)) (acc : DB × List (String × Nat)) :
    ((l.foldl (authorStep pid ob) acc).1.papers) = acc.1.papers :=
  foldl_inv (fun a => a.1.papers) (authorStep pid ob)
    (fun b x => authorStep_papers pid ob b x) l acc

theorem authorsFold_affs (pid : Nat) (ob : List (String × String))
    (l : List (Nat × String)) (acc : DB × List (String × Nat)) :
    ((l.foldl (authorStep pid ob) acc).1.affiliations) = acc.1.affiliations :=
  foldl_inv (fun a => a.1.affiliations) (authorStep pid ob)
    (fun b x => authorStep_affs pid ob b x) l acc

theorem authorsFold_estab (pid : Nat) (ob : List (String × String)) :
    ∀ (l : List (Nat × String)) (acc : DB × List (String × Nat)) (x : Nat × String),
    x ∈ l → NamePresent ((l.foldl (authorStep pid ob) acc).1.authors) x.2 := by
  intro l
  induction l with
  | nil => intro acc x hx; cases hx
  | cons hd tl ih =>
    intro acc x hx
    rw [List.foldl_cons]
    rcases List.mem_cons.mp hx with h | h
    · subst h
      exact foldl_pres (fun a => NamePresent a.1.authors x.2) (authorStep pid ob)
        (fun b y hb => authorStep_pres pid ob b y x.2 hb) tl _
        (authorStep_estab pid ob acc x)
    · exact ih _ x h

theorem authorsFold_len (pid : Nat) (ob : List (String × String)) :
    ∀ (l : List (Nat × String)) (acc : DB × List (String × Nat)),
    (∀ x ∈ l, NamePresent acc.1.authors x.2) →
    ((l.foldl (authorStep pid ob) acc).1.authors.length = acc.1.authors.length) := by
  intro l
  induction l with
  | nil => intro acc _; rfl
  | cons hd tl ih =>
    intro acc hall
    rw [List.foldl_cons,
        ih _ (fun x hx => authorStep_pres pid ob acc hd x.2
          (hall x (List.mem_cons_of_mem hd hx))),
        authorStep_len pid ob acc hd (hall hd (List.mem_cons_self hd tl))]

theorem amap_keys (pid : Nat) (ob : List (String × String)) :
    ∀ (l : List (Nat × String)) (acc : DB × List (String × Nat)),
    ((l.foldl (authorStep pid ob) acc).2.map Prod.fst)
      = (l.map Prod.snd).reverse ++ acc.2.map Prod.fst := by
  intro l
  induction l with
  | nil => intro acc; simp
  | cons hd tl ih =>
    intro acc
    rw [List.foldl_cons, ih, authorStep_keys, List.map_cons, List.reverse_cons,
        List.append_assoc]
    rfl

theorem categoryFindOrInsert_fields (db : DB) (cat : String) :
    (categoryFindOrInsert db cat).1.papers = db.papers ∧
    (categoryFindOrInsert db cat).1.authors = db.authors ∧
    (categoryFindOrInsert db cat).1.affiliations = db.affiliations := by
  unfold categoryFindOrInsert
  cases db.categories.find? (fun r => r.category == cat) <;> exact ⟨rfl, rfl, rfl⟩

theorem categoryStep_papers (pid : Nat) (db : DB) (cat : String) :
    (categoryStep pid db cat).papers = db.papers := by
  unfold categoryStep
  dsimp only
  split
  · exact (categoryFindOrInsert_fields db cat).1
  · exact (categoryFindOrInsert_fields db cat).1

theorem categoryStep_authors (pid : Nat) (db : DB) (cat : String) :
    (categoryStep pid db cat).authors = db.authors := by
  unfold categoryStep
  dsimp only
  split
  · exact (categoryFindOrInsert_fields db cat).2.1
  · exact (categoryFindOrInsert_fields db cat).2.1

theorem categoryStep_affs (pid : Nat) (db : DB) (cat : String) :
    (categoryStep pid db cat).affiliations = db.affiliations := by
  unfold categoryStep
  dsimp only
  split
  · exact (categoryFindOrInsert_fields db cat).2.2
  · exact (categoryFindOrInsert_fields db cat).2.2

theorem catFold_papers (pid : Nat) (l : List String) (db : DB) :
    ((l.foldl (categoryStep pid) db).papers) = db.papers :=
  foldl_inv DB.papers (categoryStep pid) (fun b x => categoryStep_papers pid b x) l db

theorem catFold_authors (pid : Nat) (l : List String) (db : DB) :
    ((l.foldl (categoryStep pid) db).authors) = db.authors :=
  foldl_inv DB.authors (categoryStep pid) (fun b x => categoryStep_authors pid b x) l db

theorem catFold_affs (pid : Nat) (l : List String) (db : DB) :
    ((l.foldl (categoryStep pid) db).affiliations) = db.affiliations :=
  foldl_inv DB.affiliations (categoryStep pid) (fun b x => categoryStep_affs pid b x) l db

theorem affFindOrInsert_papers (db : DB) (c k : String) :
    (affFindOrInsert db c k).1.papers = db.papers := by
  unfold affFindOrInsert
  cases db.affiliations.find? (fun r => sqlNormAff r.aff_name == k) <;> rfl

theorem affFindOrInsert_authors (db : DB) (c k : String) :
    (affFindOrInsert db c k).1.authors = db.authors := by
  unfold affFindOrInsert
  cases db.affiliations.find? (fun r => sqlNormAff r.aff_name == k) <;> rfl

theorem affFindOrInsert_of_present (db : DB) (c k : String)
    (h : AffKeyPresent db.affiliations k) : (affFindOrInsert db c k).1 = db := by
  obtain ⟨r, hr, hp⟩ := h
  have hs : (db.affiliations.find? (fun r => sqlNormAff r.aff_name == k)).isSome :=
    List.find?_isSome.mpr ⟨r, hr, hp⟩
  obtain ⟨r2, hf⟩ := Option.isSome_iff_exists.mp hs
  unfold affFindOrInsert
  rw [hf]

theorem affFindOrInsert_mono (db : DB) (c k k' : String)
    (h : AffKeyPresent db.affiliations k') :
    AffKeyPresent (affFindOrInsert db c k).1.affiliations k' := by
  obtain ⟨r, hr, hp⟩ := h
  unfold affFindOrInsert
  cases db.affiliations.find? (fun r => sqlNormAff r.aff_name == k) with
  | some r2 => exact ⟨r, hr, hp⟩
  | none => exact ⟨r, List.mem_append_left _ hr, hp⟩

theorem affFindOrInsert_estab (db : DB) (c : String) :
    AffKeyPresent (affFindOrInsert db c (sqlNormAff c)).1.affiliations (sqlNormAff c) := by
  unfold affFindOrInsert
  cases hf : db.affiliations.find? (fun r => sqlNormAff r.aff_name == sqlNormAff c) with
  | some r =>
    have hp := List.find?_some hf
    exact ⟨r, List.mem_of_find?_eq_some hf, hp⟩
  | none =>
    exact ⟨_, List.mem_append_right _ (List.mem_singleton.mpr rfl), by simp⟩

theorem aaUpsertLatest_fields (aid affId : Nat) (pub : Option String) (db : DB) :
    (aaUpsertLatest aid affId pub db).papers = db.papers ∧
    (aaUpsertLatest aid affId pub db).authors = db.authors ∧
    (aaUpsertLatest aid affId pub db).affiliations = db.affiliations := by
  unfold aaUpsertLatest
  split <;> exact ⟨rfl, rfl, rfl⟩

theorem aaApplyRole_fields (aid affId : Nat) (role? : Option String) (db : DB) :
    (aaApplyRole aid affId role? db).papers = db.papers ∧
    (aaApplyRole aid affId role? db).authors = db.authors ∧
    (aaApplyRole aid affId role? db).affiliations = db.affiliations := by
  unfold aaApplyRole
  cases role? with
  | none => exact ⟨rfl, rfl, rfl⟩
  | some r => dsimp only; split <;> exact ⟨rfl, rfl, rfl⟩

theorem aaApplyStart_fields (aid affId : Nat) (sd? : Option String) (db : DB) :
    (aaApplyStart aid affId sd? db).papers = db.papers ∧
    (aaApplyStart aid affId sd? db).authors = db.authors ∧
    (aaApplyStart aid affId sd? db).affiliations = db.affiliations := by
  unfold aaApplyStart
  cases sd? with
  | none => exact ⟨rfl, rfl, rfl⟩
  | some sd => dsimp only; split <;> exact ⟨rfl, rfl, rfl⟩

theorem aaApplyEnd_fields (aid affId : Nat) (ed? : Option String) (db : DB) :
    (aaApplyEnd aid affId ed? db).papers = db.papers ∧
    (aaApplyEnd aid affId ed? db).authors = db.authors ∧
    (aaApplyEnd aid affId ed? db).affiliations = db.affiliations := by
  unfold aaApplyEnd
  cases ed? with
  | none => exact ⟨rfl, rfl, rfl⟩
  | some ed => dsimp only; split <;> exact ⟨rfl, rfl, rfl⟩

theorem affJoinStep_papers (pub : Option String) (mf : String → Option OrcidMeta)
    (aid : Nat) (db : DB) (affName : String) :
    (affJoinStep pub mf aid db affName).papers = db.papers := by
  unfold affJoinStep
  split
  · rfl
  · dsimp only
    split
    · rw [(aaUpsertLatest_fields _ _ _ _).1, affFindOrInsert_papers]
    · rw [(aaApplyEnd_fields _ _ _ _).1, (aaApplyStart_fields _ _ _ _).1,
          (aaApplyRole_fields _ _ _ _).1, (aaUpsertLatest_fields _ _ _ _).1,
          affFindOrInsert_papers]

theorem affJoinStep_authors (pub : Option String) (mf : String → Option OrcidMeta)
    (aid : Nat) (db : DB) (affName : String) :
    (affJoinStep pub mf aid db affName).authors = db.authors := by
  unfold affJoinStep
  split
  · rfl
  · dsimp only
    split
    · rw [(aaUpsertLatest_fields _ _ _ _).2.1, affFindOrInsert_authors]
    · rw [(aaApplyEnd_fields _ _ _ _).2.1, (aaApplyStart_fields _ _ _ _).2.1,
          (aaApplyRole_fields _ _ _ _).2.1, (aaUpsertLatest_fields _ _ _ _).2.1,
          affFindOrInsert_authors]

theorem affJoinStep_affs_eq (pub : Option String) (mf : String → Option OrcidMeta)
    (aid : Nat) (db : DB) (affName : String) (h : affName ≠ "") :
    (affJoinStep pub mf aid db affName).affiliations
      = (affFindOrInsert db (collapseSpaces affName)
          (sqlNormAff (collapseSpaces affName))).1.affiliations := by
  unfold affJoinStep
  rw [if_neg h]
  dsimp only
  split
  · rw [(aaUpsertLatest_fields _ _ _ _).2.2]
  · rw [(aaApplyEnd_fields _ _ _ _).2.2, (aaApplyStart_fields _ _ _ _).2.2,
        (aaApplyRole_fields _ _ _ _).2.2, (aaUpsertLatest_fields _ _ _ _).2.2]

theorem affJoinStep_affs_of_present (pub : Option String) (mf : String → Option OrcidMeta)
    (aid : Nat) (db : DB) (affName : String)
    (h : affName = "" ∨ AffKeyPresent db.affiliations (sqlNormAff (collapseSpaces affName))) :
    (affJoinStep pub mf aid db affName).affiliations = db.affiliations := by
  by_cases he : affName = ""
  · unfold affJoinStep
    rw [if_pos he]
  · rcases h with h | h
    · exact absurd h he
    · rw [affJoinStep_affs_eq pub mf aid db affName he,
          affFindOrInsert_of_present db _ _ h]

theorem affJoinStep_mono (pub : Option String) (mf : String → Option OrcidMeta)
    (aid : Nat) (db : DB) (affName k : String)
    (h : AffKeyPresent db.affiliations k) :
    AffKeyPresent (affJoinStep pub mf aid db affName).affiliations k := by
  by_cases he : affName = ""
  · unfold affJoinStep
    rw [if_pos he]
    exact h
  · rw [affJoinStep_affs_eq pub mf aid db affName he]
    exact affFindOrInsert_mono db _ _ k h

theorem affJoinStep_estab (pub : Option String) (mf : String → Option OrcidMeta)
    (aid : Nat) (db : DB) (affName : String) (h : affName ≠ "") :
    AffKeyPresent (affJoinStep pub mf aid db affName).affiliations
      (sqlNormAff (collapseSpaces affName)) := by
  rw [affJoinStep_affs_eq pub mf aid db affName h]
  exact affFindOrInsert_estab db (collapseSpaces affName)

theorem affsFold_estab (pub : Option String) (mf : String → Option OrcidMeta) (aid : Nat) :
    ∀ (affs : List String) (db : DB) (a : String), a ∈ affs → a ≠ "" →
    AffKeyPresent ((affs.foldl (affJoinStep pub mf aid) db).affiliations)
      (sqlNormAff (collapseSpaces a)) := by
  intro affs
  induction affs with
  | nil => intro db a ha _; cases ha
  | cons hd tl ih =>
    intro db a ha hne
    rw [List.foldl_cons]
    rcases List.mem_cons.mp ha with h | h
    · subst h
      exact foldl_pres
        (fun d => AffKeyPresent d.affiliations (sqlNormAff (collapseSpaces a)))
        (affJoinStep pub mf aid)
        (fun b y hb => affJoinStep_mono pub mf aid b y _ hb) tl _
        (affJoinStep_estab pub mf aid db a hne)
    · exact ih _ a h hne

theorem affsFold_affs (pub : Option String) (mf : String → Option OrcidMeta) (aid : Nat) :
    ∀ (affs : List String) (db : DB),
    (∀ a ∈ affs, a = "" ∨ AffKeyPresent db.affiliations (sqlNormAff (collapseSpaces a))) →
    ((affs.foldl (affJoinStep pub mf aid) db).affiliations = db.affiliations) := by
  intro affs
  induction affs with
  | nil => intro db _; rfl
  | cons hd tl ih =>
    intro db h
    have hstep : (affJoinStep pub mf aid db hd).affiliations = db.affiliations :=
      affJoinStep_affs_of_present pub mf aid db hd (h hd (List.mem_cons_self hd tl))
    rw [List.foldl_cons, ih _ ?_, hstep]
    intro a ha
    rcases h a (List.mem_cons_of_mem hd ha) with he | hp
    · exact Or.inl he
    · refine Or.inr ?_
      rw [hstep]
      exact hp

theorem affItemStep_papers (pub : Option String) (p : Paper)
    (amap : List (String × Nat)) (db : DB) (item : AuthorAff) :
    (affItemStep pub p amap db item).papers = db.papers := by
  unfold affItemStep
  dsimp only
  split
  · rfl
  · split
    · rfl
    · exact foldl_inv DB.papers _
        (fun b x => affJoinStep_papers _ _ _ b x) item.affiliations db

theorem affItemStep_authors (pub : Option String) (p : Paper)
    (amap : List (String × Nat)) (db : DB) (item : AuthorAff) :
    (affItemStep pub p amap db item).authors = db.authors := by
  unfold affItemStep
  dsimp only
  split
  · rfl
  · split
    · rfl
    · exact foldl_inv DB.authors _
        (fun b x => affJoinStep_authors _ _ _ b x) item.affiliations db

theorem affItemStep_mono (pub : Option String) (p : Paper)
    (amap : List (String × Nat)) (db : DB) (item : AuthorAff) (k : String)
    (h : AffKeyPresent db.affiliations k) :
    AffKeyPresent (affItemStep pub p amap db item).affiliations k := by
  unfold affItemStep
  dsimp only
  split
  · exact h
  · split
    · exact h
    · exact foldl_pres (fun d => AffKeyPresent d.affiliations k) _
        (fun b y hb => affJoinStep_mono _ _ _ b y k hb) item.affiliations db h

theorem affItemStep_affs (pub : Option String) (p : Paper)
    (amap : List (String × Nat)) (db : DB) (item : AuthorAff)
    (h : pyStrip item.name ≠ "" → ∀ aid, amap.lookup (pyStrip item.name) = some aid →
         ∀ a ∈ item.affiliations,
           a = "" ∨ AffKeyPresent db.affiliations (sqlNormAff (collapseSpaces a))) :
    (affItemStep pub p amap db item).affiliations = db.affiliations := by
  unfold affItemStep
  dsimp only
  split
  · rfl
  · rename_i hname
    split
    · rfl
    · rename_i aid hlook
      exact affsFold_affs _ _ _ item.affiliations db (h hname aid hlook)

theorem affItemStep_estab (pub : Option String) (p : Paper)
    (amap : List (String × Nat)) (db : DB) (item : AuthorAff) (a : String)
    (hname : pyStrip item.name ≠ "") (aid : Nat)
    (hlook : amap.lookup (pyStrip item.name) = some aid)
    (ha : a ∈ item.affiliations) (hne : a ≠ "") :
    AffKeyPresent (affItemStep pub p amap db item).affiliations
      (sqlNormAff (collapseSpaces a)) := by
  unfold affItemStep
  dsimp only
  rw [if_neg hname, hlook]
  exact affsFold_estab _ _ _ item.affiliations db a ha hne

theorem itemsFold_papers (pub : Option String) (p : Paper)
    (amap : List (String × Nat)) (items : List AuthorAff) (db : DB) :
    ((items.foldl (affItemStep pub p amap) db).papers) = db.papers :=
  foldl_inv DB.papers (affItemStep pub p amap)
    (fun b x => affItemStep_papers pub p amap b x) items db

theorem itemsFold_authors (pub : Option String) (p : Paper)
    (amap : List (String × Nat)) (items : List AuthorAff) (db : DB) :
    ((items.foldl (affItemStep pub p amap) db).authors) = db.authors :=
  foldl_inv DB.authors (affItemStep pub p amap)
    (fun b x => affItemStep_authors pub p amap b x) items db

theorem itemsFold_estab (pub : Option String) (p : Paper)
    (amap : List (String × Nat)) :
    ∀ (items : List AuthorAff) (db : DB) (item : AuthorAff), item ∈ items →
    pyStrip item.name ≠ "" → ∀ aid, amap.lookup (pyStrip item.name) = some aid →
    ∀ a ∈ item.affiliations, a ≠ "" →
    AffKeyPresent ((items.foldl (affItemStep pub p amap) db).affiliations)
      (sqlNormAff (collapseSpaces a)) := by
  intro items
  induction items with
  | nil => intro db item hm; cases hm
  | cons hd tl ih =>
    intro db item hm hname aid hlook a ha hne
    rw [List.foldl_cons]
    rcases List.mem_cons.mp hm with h | h
    · subst h
      exact foldl_pres
        (fun d => AffKeyPresent d.affiliations (sqlNormAff (collapseSpaces a)))
        (affItemStep pub p amap)
        (fun b y hb => affItemStep_mono pub p amap b y _ hb) tl _
        (affItemStep_estab pub p amap db item a hname aid hlook ha hne)
    · exact ih _ item h hname aid hlook a ha hne

theorem itemsFold_affs (pub : Option String) (p : Paper)
    (amap : List (String × Nat)) :
    ∀ (items : List AuthorAff) (db : DB),
    (∀ item ∈ items, pyStrip item.name ≠ "" →
      ∀ aid, amap.lookup (pyStrip item.name) = some aid →
      ∀ a ∈ item.affiliations,
        a = "" ∨ AffKeyPresent db.affiliations (sqlNormAff (collapseSpaces a))) →
    ((items.foldl (affItemStep pub p amap) db).affiliations = db.affiliations) := by
  intro items
  induction items with
  | nil => intro db _; rfl
  | cons hd tl ih =>
    intro db h
    have hstep : (affItemStep pub p amap db hd).affiliations = db.affiliations :=
      affItemStep_affs pub p amap db hd (h hd (List.mem_cons_self hd tl))
    rw [List.foldl_cons, ih _ ?_, hstep]
    intro item hm hname aid hlook a ha
    rcases h item (List.mem_cons_of_mem hd hm) hname aid hlook a ha with he | hp
    · exact Or.inl he
    · refine Or.inr ?_
      rw [hstep]
      exact hp

theorem upsertPaper_drop (p : Paper) (db : DB) (ins skip : Nat)
    (h : (insertPaperPhase p db ins skip).1 = none) :
    (upsertPaper p db ins skip).db = db ∧
    (upsertPaper p db ins skip).inserted = ins ∧
    (upsertPaper p db ins skip).skipped = skip := by
  obtain ⟨hdb, hi, hs⟩ := insertPaperPhase_none p db ins skip h
  unfold upsertPaper
  dsimp only
  rw [h]
  exact ⟨hdb, hi, hs⟩

theorem upsertPaper_paper_present (p : Paper) (db : DB) (ins skip : Nat)
    (pid : Nat) (h : (insertPaperPhase p db ins skip).1 = some pid) :
    PaperPresent (upsertPaper p db ins skip).db.papers p.id := by
  unfold upsertPaper
  dsimp only
  rw [h]
  dsimp only
  rw [itemsFold_papers, catFold_papers, authorsFold_papers]
  exact insertPaperPhase_estab p db ins skip pid h

theorem upsertPaper_name_present (p : Paper) (db : DB) (ins skip : Nat)
    (pid : Nat) (h : (insertPaperPhase p db ins skip).1 = some pid)
    (nm : String) (hnm : nm ∈ p.authors) :
    NamePresent (upsertPaper p db ins skip).db.authors nm := by
  unfold upsertPaper
  dsimp only
  rw [h]
  dsimp only
  rw [itemsFold_authors, catFold_authors]
  have h2 : nm ∈ (p.authors.enum.map (fun y => (y.1 + 1, y.2))).map Prod.snd := by
    rw [enumMap_snd]
    exact hnm
  obtain ⟨x, hx, hxe⟩ := List.mem_map.mp h2
  exact hxe ▸ authorsFold_estab _ _ _ _ x hx

theorem upsertPaper_affkey_present (p : Paper) (db : DB) (ins skip : Nat)
    (pid : Nat) (h : (insertPaperPhase p db ins skip).1 = some pid)
    (item : AuthorAff) (a : String) (hit : item ∈ p.author_affiliations)
    (hn : pyStrip item.name ≠ "") (hk : pyStrip item.name ∈ p.authors)
    (ha : a ∈ item.affiliations) (hne : a ≠ "") :
    AffKeyPresent (upsertPaper p db ins skip).db.affiliations
      (sqlNormAff (collapseSpaces a)) := by
  unfold upsertPaper
  dsimp only
  rw [h]
  dsimp only
  have hmem : pyStrip item.name ∈
      ((p.authors.enum.map (fun x => (x.1 + 1, x.2))).foldl
        (authorStep pid p.orcid_by_author)
        ((insertPaperPhase p db ins skip).2.1, [])).2.map Prod.fst := by
    rw [amap_keys]
    simp only [List.map_nil, List.append_nil, List.mem_reverse]
    rw [enumMap_snd]
    exact hk
  obtain ⟨aid, hlook⟩ := mem_keys_lookup _ _ hmem
  exact itemsFold_estab _ _ _ p.author_affiliations _ item hit hn aid hlook a ha hne

theorem upsertPaper_second_run (p : Paper) (db1 : DB) (i s : Nat)
    (hP : PaperPresent db1.papers p.id)
    (hN : ∀ x ∈ p.authors.enum.map (fun y => (y.1 + 1, y.2)), NamePresent db1.authors x.2)
    (hA : ∀ item ∈ p.author_affiliations, pyStrip item.name ≠ "" →
          pyStrip item.name ∈ p.authors → ∀ a ∈ item.affiliations, a ≠ "" →
          AffKeyPresent db1.affiliations (sqlNormAff (collapseSpaces a))) :
    (upsertPaper p db1 i s).inserted = i ∧ (upsertPaper p db1 i s).skipped = s + 1 ∧
    (upsertPaper p db1 i s).db.papers = db1.papers ∧
    (upsertPaper p db1 i s).db.authors.length = db1.authors.length ∧
    (upsertPaper p db1 i s).db.affiliations = db1.affiliations := by
  obtain ⟨hdb, hi, hs, pid2, hpid⟩ := insertPaperPhase_of_present p db1 i s hP
  unfold upsertPaper
  dsimp only
  rw [hpid]
  dsimp only
  rw [hdb, hi, hs]
  refine ⟨rfl, rfl, ?_, ?_, ?_⟩
  · rw [itemsFold_papers, catFold_papers, authorsFold_papers]
  · rw [itemsFold_authors, catFold_authors]
    exact authorsFold_len _ _ _ _ hN
  · have haffs : ((p.categories.foldl
        (categoryStep pid2)
        ((p.authors.enum.map (fun x => (x.1 + 1, x.2))).foldl
          (authorStep pid2 p.orcid_by_author)
          (db1, [])).1).affiliations) = db1.affiliations := by
      rw [catFold_affs, authorsFold_affs]
    rw [itemsFold_affs _ _ _ p.author_affiliations _ ?_, haffs]
    intro item hm hname aid hlook a ha
    by_cases he : a = ""
    · exact Or.inl he
    · refine Or.inr ?_
      have hmem := lookup_mem_keys _ _ _ hlook
      rw [amap_keys] at hmem
      simp only [List.map_nil, List.append_nil, List.mem_reverse] at hmem
      rw [enumMap_snd] at hmem
      rw [haffs]
      exact hA item hm hname hmem a ha he

set_option maxRecDepth 4000 in
/-- C7 counterexample to the unconditional idempotence claim: against a
store holding a row with the same `(paper_title, published)` key under a
different `arxiv_entry`, the INSERT raises (`ON CONFLICT (arxiv_entry)` does
not arbitrate that constraint), the handler's select finds no `arxiv_entry`
match and the record is dropped uncounted — on the first and on the second
run alike, so the second run does not increment `skipped`. -/
theorem upsert_conflict_drop_counterexample :
    (upsertPaper paperU dbConflict 0 0).db = dbConflict ∧
    (upsertPaper paperU dbConflict 0 0).inserted = 0 ∧
    (upsertPaper paperU dbConflict 0 0).skipped = 0 ∧
    ¬ ((upsertPaper paperU (upsertPaper paperU dbConflict 0 0).db
          (upsertPaper paperU dbConflict 0 0).inserted
          (upsertPaper paperU dbConflict 0 0).skipped).skipped
        = (upsertPaper paperU dbConflict 0 0).skipped + 1) := by
  decide

/-- C7 (amended): re-upserting the same record never counts an insert and
adds no row to `papers`, `authors` or `affiliations` beyond those of the
first run — papers and affiliations are unchanged as lists and the authors
table keeps its length.  When the first run obtained a paper id (fresh
insert or `arxiv_entry` conflict), the second run takes the
`ON CONFLICT (arxiv_entry) DO NOTHING` path and increments `skipped`; when
it did not (the `UNIQUE (paper_title, published)` violation drop), both
runs leave the store and both counters untouched. -/
theorem upsert_rerun_spec (p : Paper) (db0 : DB) (ins skip : Nat) :
    (upsertPaper p (upsertPaper p db0 ins skip).db (upsertPaper p db0 ins skip).inserted
        (upsertPaper p db0 ins skip).skipped).inserted
      = (upsertPaper p db0 ins skip).inserted ∧
    (upsertPaper p (upsertPaper p db0 ins skip).db (upsertPaper p db0 ins skip).inserted
        (upsertPaper p db0 ins skip).skipped).db.papers
      = (upsertPaper p db0 ins skip).db.papers ∧
    (upsertPaper p (upsertPaper p db0 ins skip).db (upsertPaper p db0 ins skip).inserted
        (upsertPaper p db0 ins skip).skipped).db.authors.length
      = (upsertPaper p db0 ins skip).db.authors.length ∧
    (upsertPaper p (upsertPaper p db0 ins skip).db (upsertPaper p db0 ins skip).inserted
        (upsertPaper p db0 ins skip).skipped).db.affiliations
      = (upsertPaper p db0 ins skip).db.affiliations ∧
    (((insertPaperPhase p db0 ins skip).1.isSome = true ∧
      (upsertPaper p (upsertPaper p db0 ins skip).db (upsertPaper p db0 ins skip).inserted
          (upsertPaper p db0 ins skip).skipped).skipped
        = (upsertPaper p db0 ins skip).skipped + 1) ∨
     ((insertPaperPhase p db0 ins skip).1.isSome = false ∧
      (upsertPaper p (upsertPaper p db0 ins skip).db (upsertPaper p db0 ins skip).inserted
          (upsertPaper p db0 ins skip).skipped).skipped
        = (upsertPaper p db0 ins skip).skipped ∧
      (upsertPaper p (upsertPaper p db0 ins skip).db (upsertPaper p db0 ins skip).inserted
          (upsertPaper p db0 ins skip).skipped).db
        = (upsertPaper p db0 ins skip).db)) := by
  cases hio : (insertPaperPhase p db0 ins skip).1 with
  | none =>
    obtain ⟨hdb, hi, hs⟩ := upsertPaper_drop p db0 ins skip hio
    rw [hdb, hi, hs, hdb, hi, hs]
    exact ⟨rfl, rfl, rfl, rfl, Or.inr ⟨rfl, rfl, rfl⟩⟩
  | some pid =>
    obtain ⟨hi2, hs2, hp2, ha2, haf2⟩ := upsertPaper_second_run p
      (upsertPaper p db0 ins skip).db (upsertPaper p db0 ins skip).inserted
      (upsertPaper p db0 ins skip).skipped
      (upsertPaper_paper_present p db0 ins skip pid hio)
      (fun x hx => by
        refine upsertPaper_name_present p db0 ins skip pid hio x.2 ?_
        have hm := List.mem_map_of_mem Prod.snd hx
        rw [enumMap_snd] at hm
        exact hm)
      (fun item hm hname hmem a ha hne =>
        upsertPaper_affkey_present p db0 ins skip pid hio item a hm hname hmem ha hne)
    exact ⟨hi2, hp2, ha2, haf2, Or.inl ⟨rfl, hs2⟩⟩

set_option maxRecDepth 4000 in
/-- Witness for the amended C7 at a fresh insert: re-upserting `paperU`
after it went into the pre-populated store counts exactly one skip. -/
theorem upsert_rerun_spec_witness :
    (upsertPaper paperU (upsertPaper paperU dbW 0 0).db
        (upsertPaper paperU dbW 0 0).inserted
        (upsertPaper paperU dbW 0 0).skipped).skipped
      = (upsertPaper paperU dbW 0 0).skipped + 1 := by
  rcases upsert_rerun_spec paperU dbW 0 0 with ⟨_, _, _, _, h⟩
  rcases h with ⟨_, hs⟩ | ⟨hn, _, _⟩
  · exact hs
  · exact absurd hn (by decide)

end ArxivFetcher
